import Mathlib

/-! Event-sourcing aggregate root (package `es`)

A shallow embedding of `src/es/event.go`, `src/es/reflect.go` and `src/es/aggregate.go`,
and of the event store adapter `src/database/esdb` (namespace `esdb`).

* A Go `uint64` (`Version`) is a natural number below `2 ^ 64`; every addition the
  source performs on it is followed by an explicit `% 2 ^ 64`.
* A method with a pointer receiver that returns `error` becomes a function from the
  receiver to the pair (receiver afterwards, `Option Error`); `none` is Go's `nil` error.
* A slice of event pointers is a list of event values: the code under study never
  writes through an event pointer and never compares two pointers.
* The mutex is not modelled: every operation is one atomic function.
* The aggregates of a program live in a heap indexed by address, so that `NewEvent` can
  advance the counter of the aggregate it is given and of no other.
-/

set_option autoImplicit false

namespace es

/-! ## Data model (`src/es/event.go`) -/

/-- Number of values of Go's `uint64`, the underlying type of `Version`. -/
def versionModulus : Nat := 2 ^ 64

/-- The struct `Event`; its field `Type` is `TypeName` here. `Aggregate`, `Timestamp` and
`Data` are references to values the aggregate root never inspects; they are kept as
natural-number handles. -/
structure Event where
  AggregateID : String
  Version : Nat
  TypeName : String
  Aggregate : Nat
  Timestamp : Nat
  Data : Nat
  Metadata : List Nat
  deriving DecidableEq, Repr

/-- An event value the Go type can hold: its version fits in 64 bits. -/
def Event.WellFormed (e : Event) : Prop := e.Version < versionModulus

instance (e : Event) : Decidable e.WellFormed := by
  unfold Event.WellFormed; exact inferInstance

/-- The type `Events`: a slice of pointers to `Event`. -/
abbrev Events := List Event

/-- The method `Events.versions`: versions of all events, in order. The Go loop appends
`v.Version` for each element in turn. -/
def Events.versions (e : Events) : List Nat :=
  e.foldl (fun version v => version ++ [v.Version]) []

end es

namespace slices

/-- Modelled from the spec: the helper `Unique` of the repository's own package `slices`
(imported by `src/es/event.go`) is not among the sources. The spec fixes only what
`Events.Unique` needs from it: the result holds every distinct value of the input once,
so that it is as long as the input exactly when no value repeats. -/
def Unique (s : List Nat) : List Nat := s.dedup

/-- The function `Contains` of `golang.org/x/exp/slices`: whether `v` occurs in `s`. -/
def Contains (s : List Nat) (v : Nat) : Bool := s.contains v

end slices

namespace es

/-- The method `Events.Unique`: whether events are unique based on their version. -/
def Events.Unique (e : Events) : Bool :=
  let versions := Events.versions e
  (slices.Unique versions).length == versions.length

/-! ## Aggregate root (`src/es/aggregate.go`) -/

/-- The error values the aggregate root returns. `AlreadyInitialised` is the value built
in place by `Reply` with `errors.New`; the other three are the package variables. -/
inductive Error where
  | ErrDuplicateEvent
  | ErrVersionMismatch
  | ErrSyncNoEvents
  | AlreadyInitialised
  deriving DecidableEq, Repr

/-- The message each error value was created with. -/
def Error.message : Error → String
  | .ErrDuplicateEvent => "not valid event: duplicated event"
  | .ErrVersionMismatch => "not valid event: version mismatch"
  | .ErrSyncNoEvents => "unable to sync an event: no pending events"
  | .AlreadyInitialised => "aggregate is already initialised"

/-- The struct `AggregateRoot` without its mutex. -/
structure AggregateRoot where
  version : Nat
  state : Events
  pending : Events
  deriving DecidableEq, Repr

/-- The zero value of `AggregateRoot`. -/
def AggregateRoot.zero : AggregateRoot := { version := 0, state := [], pending := [] }

/-- A root the Go type can hold: the counter and every held version fit in 64 bits. -/
def AggregateRoot.WellFormed (ar : AggregateRoot) : Prop :=
  ar.version < versionModulus ∧ (∀ e ∈ ar.state, e.WellFormed) ∧ (∀ e ∈ ar.pending, e.WellFormed)

/-- The method `Events`: the events applied recently. -/
def AggregateRoot.Events (ar : AggregateRoot) : Events := ar.pending

/-- The method `getLastEvent`: the last event of the aggregate, from `pending` when it
is non-empty, else from `state`; `none` is the nil pointer. -/
def AggregateRoot.getLastEvent (ar : AggregateRoot) : Option Event :=
  let pending := ar.pending.length
  let state := ar.state.length
  if state = 0 ∧ pending = 0 then none
  else if pending > 0 then ar.pending[pending - 1]?
  else ar.state[state - 1]?

/-- The loop of `Reply`: the first event whose version is not larger than the version of
`last` ends the call with `ErrVersionMismatch`; `last` is read once, before the loop. -/
def AggregateRoot.replyCheck (last : Option Event) : List Event → Option Error
  | [] => none
  | v :: rest =>
    match last with
    | some l =>
      if l.Version ≥ v.Version then some Error.ErrVersionMismatch
      else AggregateRoot.replyCheck last rest
    | none => AggregateRoot.replyCheck last rest

/-- The method `Reply`: sets the given events as persisted state of the aggregate. -/
def AggregateRoot.Reply (ar : AggregateRoot) (event : List Event) :
    AggregateRoot × Option Error :=
  if ar.pending.length > 0 then (ar, some Error.AlreadyInitialised)
  else if !Events.Unique event then (ar, some Error.ErrDuplicateEvent)
  else if !Events.Unique (ar.state ++ event) then (ar, some Error.ErrDuplicateEvent)
  else
    let last := ar.getLastEvent
    match AggregateRoot.replyCheck last event with
    | some err => (ar, some err)
    | none => ({ ar with state := ar.state ++ event }, none)

/-- The method `Sync`: moves the oldest pending event to the end of `state`. -/
def AggregateRoot.Sync (ar : AggregateRoot) (event : Event) :
    AggregateRoot × Option Error :=
  match ar.pending with
  | [] => (ar, some Error.ErrSyncNoEvents)
  | head :: rest =>
    if head.Version ≠ event.Version then (ar, some Error.ErrVersionMismatch)
    else ({ ar with state := ar.state ++ [head], pending := rest }, none)

/-- The method `Apply`: adds the event to the pending list. -/
def AggregateRoot.Apply (ar : AggregateRoot) (event : Event) :
    AggregateRoot × Option Error :=
  let version := Events.versions ar.state ++ Events.versions ar.pending
  if slices.Contains version event.Version then (ar, some Error.ErrDuplicateEvent)
  else
    let last := ar.getLastEvent
    match last with
    | some l =>
      if (l.Version + 1) % versionModulus ≠ event.Version then
        (ar, some Error.ErrVersionMismatch)
      else ({ ar with pending := ar.pending ++ [event] }, none)
    | none => ({ ar with pending := ar.pending ++ [event] }, none)

/-- The method `Version`: the current counter. -/
def AggregateRoot.Version (ar : AggregateRoot) : Nat := ar.version

/-- The method `AdvanceVersion`: increases the counter by one (wrapping as `uint64`
does) and returns the new value. -/
def AggregateRoot.AdvanceVersion (ar : AggregateRoot) : AggregateRoot × Nat :=
  let version := (ar.version + 1) % versionModulus
  ({ ar with version := version }, version)

/-- States of a root that a program can produce from the zero value by calling the
mutating methods `Apply`, `Reply`, `Sync` and `AdvanceVersion` with event values the Go
type can hold; a call that returns an error is a step too. -/
inductive Reachable : AggregateRoot → Prop
  | zero : Reachable AggregateRoot.zero
  | apply (ar : AggregateRoot) (e : Event) :
      Reachable ar → e.WellFormed → Reachable (ar.Apply e).1
  | reply (ar : AggregateRoot) (batch : List Event) :
      Reachable ar → (∀ e ∈ batch, e.WellFormed) → Reachable (ar.Reply batch).1
  | sync (ar : AggregateRoot) (e : Event) :
      Reachable ar → e.WellFormed → Reachable (ar.Sync e).1
  | advance (ar : AggregateRoot) : Reachable ar → Reachable ar.AdvanceVersion.1

/-- The tail of the spec: the last element of `pending` if it is non-empty, otherwise
the last element of `state`, otherwise nothing. -/
def tailEvent (ar : AggregateRoot) : Option Event :=
  match ar.pending.getLast? with
  | some t => some t
  | none => ar.state.getLast?

/-- A test event that carries only a version. -/
def eventWithVersion (v : Nat) : Event :=
  { AggregateID := "1", Version := v, TypeName := "", Aggregate := 0, Timestamp := 0, Data := 0,
    Metadata := [] }

/-- The versions held by a root, state first, then pending. -/
def heldVersions (ar : AggregateRoot) : List Nat :=
  (ar.state ++ ar.pending).map (fun v => v.Version)

/-- Each pending event carries the version of the event held just before it (the one
before it in pending, or the last of state for the first pending event), plus one as
`uint64` adds. -/
def pendingChain (ar : AggregateRoot) : Prop :=
  List.Chain' (fun a b : Event => b.Version = (a.Version + 1) % versionModulus)
    (ar.state.getLast?.toList ++ ar.pending)

/-- States of a root reached from the zero value by calls in which every event handed to
`Apply` or `Reply` carries a version the counter has already handed out, and in which the
counter is advanced only while it does not wrap around. -/
inductive ReachableStamped : AggregateRoot → Prop
  | zero : ReachableStamped AggregateRoot.zero
  | apply (ar : AggregateRoot) (e : Event) :
      ReachableStamped ar → e.Version ≤ ar.version → ReachableStamped (ar.Apply e).1
  | reply (ar : AggregateRoot) (batch : List Event) :
      ReachableStamped ar → (∀ e ∈ batch, e.Version ≤ ar.version) →
      ReachableStamped (ar.Reply batch).1
  | sync (ar : AggregateRoot) (e : Event) :
      ReachableStamped ar → ReachableStamped (ar.Sync e).1
  | advance (ar : AggregateRoot) :
      ReachableStamped ar → ar.version + 1 < versionModulus →
      ReachableStamped ar.AdvanceVersion.1

/-! ## Event construction (`src/es/reflect.go`, `src/es/event.go`) -/

/-- What package `reflect` shows of the dynamic type of a value: a type with its name
within its package (empty when the type has none), or a pointer to a type. -/
inductive GoType where
  | named (name : String)
  | pointer (elem : GoType)
  deriving DecidableEq, Repr

/-- The method `Name` of `reflect.Type`: the name of a defined type; a pointer type has
no name. -/
def GoType.Name : GoType → String
  | .named name => name
  | .pointer _ => ""

/-- The function `parseTypeName`, on the dynamic type of its argument. -/
def parseTypeName (t : GoType) : String :=
  match t with
  | .pointer elem => elem.Name
  | .named name => (GoType.named name).Name

/-- The function `ParseEventName`. -/
def ParseEventName (v : GoType) : String := parseTypeName v

/-- The function `ParseAggregateName`. -/
def ParseAggregateName (v : GoType) : String := parseTypeName v

/-- A value of the interface type `MarshalUnmarshaler`: its dynamic type and a handle to
the payload it holds. -/
structure MarshalUnmarshaler where
  dynamicType : GoType
  handle : Nat
  deriving DecidableEq, Repr

/-- The aggregate roots of a program, by the address of the aggregate that embeds them. -/
abbrev Heap := Nat → AggregateRoot

/-- The function `NewEvent`: `agg` is the address of the aggregate, `now` the reading of
the clock. The counter of the root of `agg` is advanced in the heap and its new value is
the version of the event. -/
def NewEvent (heap : Heap) (id : String) (agg : Nat) (event : MarshalUnmarshaler)
    (now : Nat) : Heap × Event :=
  let advanced := (heap agg).AdvanceVersion
  (Function.update heap agg advanced.1,
    { AggregateID := id, Version := advanced.2, Aggregate := agg,
      TypeName := ParseEventName event.dynamicType, Timestamp := now, Data := event.handle,
      Metadata := [] })

/-- The arguments of one call of `NewEvent` other than the aggregate. -/
structure NewEventArgs where
  id : String
  event : MarshalUnmarshaler
  now : Nat
  deriving DecidableEq, Repr

/-- Calls of `NewEvent` on the aggregate at `agg`, one after the other as `TestSync`
builds its events; the events come back in construction order. -/
def newEvents (heap : Heap) (agg : Nat) : List NewEventArgs → Heap × List Event
  | [] => (heap, [])
  | a :: rest =>
    let first := NewEvent heap a.id agg a.event a.now
    let others := newEvents first.1 agg rest
    (others.1, first.2 :: others.2)

/-- One call of a method of the root for each event of a list, in list order, as the loops
of `TestSync` do; the errors come back in call order. -/
def callInOrder (op : AggregateRoot → Event → AggregateRoot × Option Error)
    (ar : AggregateRoot) : List Event → AggregateRoot × List (Option Error)
  | [] => (ar, [])
  | e :: rest =>
    let first := op ar e
    let others := callInOrder op first.1 rest
    (others.1, first.2 :: others.2)

/-- States of a root reached from the zero value by calls of `Apply` and `Sync` alone,
with event values the Go type can hold; a call that returns an error is a step too. -/
inductive ReachableApplySync : AggregateRoot → Prop
  | zero : ReachableApplySync AggregateRoot.zero
  | apply (ar : AggregateRoot) (e : Event) :
      ReachableApplySync ar → e.WellFormed → ReachableApplySync (ar.Apply e).1
  | sync (ar : AggregateRoot) (e : Event) :
      ReachableApplySync ar → e.WellFormed → ReachableApplySync (ar.Sync e).1

/-- Runs of a program on the aggregate at address `agg`, started with its root at the
zero value, in which every event handed to `Apply` or `Reply` was made by `NewEvent` on
that aggregate, and in which the counter is advanced only while it does not wrap around.
The list holds the events made so far. `Sync` takes any argument. -/
inductive ConstructedRun (agg : Nat) : Heap → List Event → Prop
  | fresh (heap : Heap) : heap agg = AggregateRoot.zero → ConstructedRun agg heap []
  | newEvent (heap : Heap) (issued : List Event) (id : String) (event : MarshalUnmarshaler)
      (now : Nat) :
      ConstructedRun agg heap issued → (heap agg).version + 1 < versionModulus →
      ConstructedRun agg (NewEvent heap id agg event now).1
        ((NewEvent heap id agg event now).2 :: issued)
  | advance (heap : Heap) (issued : List Event) :
      ConstructedRun agg heap issued → (heap agg).version + 1 < versionModulus →
      ConstructedRun agg (Function.update heap agg (heap agg).AdvanceVersion.1) issued
  | apply (heap : Heap) (issued : List Event) (e : Event) :
      ConstructedRun agg heap issued → e ∈ issued →
      ConstructedRun agg (Function.update heap agg ((heap agg).Apply e).1) issued
  | reply (heap : Heap) (issued : List Event) (batch : List Event) :
      ConstructedRun agg heap issued → (∀ e ∈ batch, e ∈ issued) →
      ConstructedRun agg (Function.update heap agg ((heap agg).Reply batch).1) issued
  | sync (heap : Heap) (issued : List Event) (e : Event) :
      ConstructedRun agg heap issued →
      ConstructedRun agg (Function.update heap agg ((heap agg).Sync e).1) issued

/-! ## Registry of aggregate events (`src/es/event.go`) -/

/-- A value of the interface type `Aggregate` other than nil: its dynamic type and the
address of the aggregate it points to. The nil value is `none` where an aggregate is
an argument. -/
structure Aggregate where
  dynamicType : GoType
  address : Nat
  deriving DecidableEq, Repr

/-- The type `EventRegisterFunc`: a function without arguments that returns a payload;
`none` is the nil payload. A nil function is `none` where a function is an argument. -/
abbrev EventRegisterFunc := Unit → Option MarshalUnmarshaler

/-- How a call ends: it returns a value, it panics, or it never returns because it waits
for the mutex `mu`, which is held and will not be released. -/
inductive Outcome (α : Type) where
  | returned (value : α)
  | panicked
  | blocked

/-- The package variables `events`, `aggregates` and `mu`; a map is a function from keys
to optional values, `none` for the inner map is the nil map, and `locked` says that `mu`
is held. -/
structure Registry where
  events : String → Option (String → Option EventRegisterFunc)
  aggregates : String → Option Aggregate
  locked : Bool

/-- The package state after `init`: both maps made and empty, `mu` free. -/
def Registry.init : Registry :=
  { events := fun _ => none, aggregates := fun _ => none, locked := false }

/-- The error value `GetAggregateEvent` builds with `errors.New`. -/
inductive RegistryError where
  | NotFound
  deriving DecidableEq, Repr

/-- The message of the registry error. -/
def RegistryError.message : RegistryError → String
  | .NotFound => "not found"

/-- The function `RegisterAggregateEvent`. It locks `mu` and unlocks it only at its end,
without `defer`: when `parseTypeName` panics on a nil aggregate or on the nil payload of
`reg()`, or when `reg` is a nil function, `mu` stays held. -/
def RegisterAggregateEvent (r : Registry) (agg : Option Aggregate)
    (reg : Option EventRegisterFunc) : Registry × Outcome Unit :=
  if r.locked then (r, Outcome.blocked)
  else
    match agg with
    | none => ({ r with locked := true }, Outcome.panicked)
    | some a =>
      let aggname := ParseAggregateName a.dynamicType
      match reg with
      | none => ({ r with locked := true }, Outcome.panicked)
      | some f =>
        match f () with
        | none => ({ r with locked := true }, Outcome.panicked)
        | some payload =>
          let eventname := ParseEventName payload.dynamicType
          let aggregates := Function.update r.aggregates aggname (some a)
          let inner : String → Option EventRegisterFunc :=
            match r.events aggname with
            | none => fun _ => none
            | some m => m
          ({ events := Function.update r.events aggname
               (some (Function.update inner eventname (some f))),
             aggregates := aggregates, locked := false }, Outcome.returned ())

/-- The function `GetAggregateEvent`; reading a key of a nil map finds nothing. It locks
`mu` and defers the unlock, so a panic on a nil aggregate leaves `mu` free and the
registry as it was. -/
def GetAggregateEvent (r : Registry) (aggregate : Option Aggregate) (event : String) :
    Outcome (Except RegistryError (Option MarshalUnmarshaler)) :=
  if r.locked then Outcome.blocked
  else
    match aggregate with
    | none => Outcome.panicked
    | some a =>
      let aggname := ParseAggregateName a.dynamicType
      let inner : String → Option EventRegisterFunc :=
        match r.events aggname with
        | none => fun _ => none
        | some m => m
      match inner event with
      | none => Outcome.returned (Except.error RegistryError.NotFound)
      | some v => Outcome.returned (Except.ok (v ()))

/-- A sequence of `RegisterAggregateEvent` calls, first call first, each with an
aggregate and a constructor that returns the given payload. -/
def registerAll (r : Registry) (regs : List (Aggregate × MarshalUnmarshaler)) : Registry :=
  regs.foldl (fun acc p => (RegisterAggregateEvent acc (some p.1) (some (fun _ => some p.2))).1) r

/-- The naming rule of the spec, in its words: for a pointer to a named type the bare
name of that named type, for a named type its own bare name. The rule names no other
type; the values of an interface with methods have no other dynamic type. -/
def typeNameRule : GoType → Option String
  | .pointer (.named name) => some name
  | .named name => some name
  | .pointer (.pointer _) => none

/-- Whether a registration is one of an aggregate type named `aggName` with an event
type named `event`, names by the rule of the spec. -/
def registeredAs (aggName : String) (event : String) (p : Aggregate × MarshalUnmarshaler) :
    Bool :=
  typeNameRule p.1.dynamicType == some aggName && typeNameRule p.2.dynamicType == some event

end es

namespace eventstore

/-! ## The EventStore client library used by `src/database/esdb`

The package `github.com/EventStore/EventStore-Client-Go/esdb` and the store behind it are
not part of the repository. They are modelled as far as `Client.Save`, `Client.Get` and
`Iterator` use them: a store maps the name of a stream to its records, and the records of
a stream are numbered from 0 in the order in which they were appended. -/

/-- The values of the interface `ExpectedRevision`. -/
inductive ExpectedRevision where
  | Any
  | StreamExists
  | NoStream
  | StreamRevision (Value : Nat)
  deriving DecidableEq, Repr

/-- The struct `AppendToStreamOptions`; `none` is the field left at its zero value. -/
structure AppendToStreamOptions where
  ExpectedRevision : Option ExpectedRevision
  deriving DecidableEq, Repr

/-- The content types of the library. -/
inductive ContentType where
  | BinaryContentType
  | JsonContentType
  deriving DecidableEq, Repr

/-- The struct `EventData`, with the fields `Save` fills. -/
structure EventData where
  ContentType : ContentType
  EventType : String
  Data : List Nat
  Metadata : List Nat
  deriving DecidableEq, Repr

/-- The struct `RecordedEvent`, with the fields `Iterator.Value` reads. -/
structure RecordedEvent where
  StreamID : String
  EventNumber : Nat
  EventType : String
  CreatedDate : Nat
  Data : List Nat
  UserMetadata : List Nat
  deriving DecidableEq, Repr

/-- The errors of the library that the model can produce. -/
inductive Error where
  | ErrStreamNotFound
  | ErrWrongExpectedStreamRevision
  | EOF
  deriving DecidableEq, Repr

/-- A store: the records of every stream that exists, by stream name. -/
abbrev Store := String → Option (List RecordedEvent)

/-- Whether the store accepts an append with the given expectation on a stream in the
given state; a revision is the number of the last record of the stream. -/
def revisionAccepted (current : Option (List RecordedEvent)) :
    Option ExpectedRevision → Bool
  | none => true
  | some ExpectedRevision.Any => true
  | some ExpectedRevision.StreamExists => current.isSome
  | some ExpectedRevision.NoStream => current.isNone
  | some (ExpectedRevision.StreamRevision v) =>
    match current with
    | some records => records.length == v + 1
    | none => false

/-- The records the store makes of appended events, numbered from `start` on. -/
def record (streamID : String) (now : Nat) : Nat → List EventData → List RecordedEvent
  | _, [] => []
  | start, d :: rest =>
    { StreamID := streamID, EventNumber := start, EventType := d.EventType,
      CreatedDate := now, Data := d.Data, UserMetadata := d.Metadata } ::
      record streamID now (start + 1) rest

/-- The method `AppendToStream` of the client, on a store; `now` is the clock of the
store. -/
def AppendToStream (store : Store) (streamID : String) (opts : AppendToStreamOptions)
    (events : List EventData) (now : Nat) : Store × Option Error :=
  let current := store streamID
  if revisionAccepted current opts.ExpectedRevision then
    let old := current.getD []
    (Function.update store streamID (some (old ++ record streamID now old.length events)),
      none)
  else (store, some Error.ErrWrongExpectedStreamRevision)

/-- The method `ReadStream` of the client, reading forwards from the revision `start`, at
most `count` records; what comes back is the sequence of records still to be received. A
read that starts past the end of a stream that exists fails with `io.EOF`. -/
def ReadStream (store : Store) (streamID : String) (start : Nat) (count : Nat) :
    Except Error (List RecordedEvent) :=
  match store streamID with
  | none => Except.error Error.ErrStreamNotFound
  | some records =>
    if records.length ≤ start then Except.error Error.EOF
    else Except.ok ((records.drop start).take count)

end eventstore

namespace esdb

/-! ## Event store adapter (`src/database/esdb`) -/

/-- The struct `Event` of package `esdb`; its field `Type` is `TypeName` here. -/
structure Event where
  AggregateID : String
  Version : Nat
  Aggregate : String
  TypeName : String
  Timestamp : Nat
  Data : List Nat
  Metadata : List Nat
  deriving DecidableEq, Repr

/-- The constant `count`: `math.MaxInt64`. -/
def count : Nat := 2 ^ 63 - 1

/-- The errors `Save` can return: the one `parseFirstEventVersion` builds, or one of the
store. -/
inductive SaveError where
  | EmptyEventsList
  | Store (err : eventstore.Error)
  deriving DecidableEq, Repr

/-- The function `parseFirstEventVersion`: the version of `events[0]`. -/
def parseFirstEventVersion (events : List Event) : Except SaveError Nat :=
  match events with
  | [] => Except.error SaveError.EmptyEventsList
  | first :: _ => Except.ok first.Version

/-- The arguments of a call of `AppendToStream`. -/
structure AppendCall where
  streamID : String
  options : eventstore.AppendToStreamOptions
  data : List eventstore.EventData
  deriving DecidableEq, Repr

/-- Lines 48 to 75 of `Client.Save`: what `Save` hands to `AppendToStream`, `none` when it
returns before any call. The function `stream` of the package, which names the stream of a
batch, is not among the sources and is a parameter. -/
def Client.saveCall (stream : List Event → String) (events : List Event) :
    Except SaveError (Option AppendCall) :=
  if events.length = 0 then Except.ok none
  else
    let data := events.map (fun v =>
      ({ ContentType := eventstore.ContentType.JsonContentType, EventType := v.TypeName,
         Data := v.Data, Metadata := v.Metadata } : eventstore.EventData))
    match parseFirstEventVersion events with
    | Except.error err => Except.error err
    | Except.ok version =>
      let streamOptions : eventstore.AppendToStreamOptions :=
        if version > 1 then
          { ExpectedRevision := some (eventstore.ExpectedRevision.StreamRevision
              ((version + 2 ^ 64 - 2) % 2 ^ 64)) }
        else if version = 1 then
          { ExpectedRevision := some eventstore.ExpectedRevision.NoStream }
        else { ExpectedRevision := none }
      Except.ok (some { streamID := stream events, options := streamOptions, data := data })

/-- The method `Client.Save`: the call prepared by `saveCall` is made on the store and
its error, if any, is returned. -/
def Client.Save (stream : List Event → String) (store : eventstore.Store)
    (events : List Event) (now : Nat) : eventstore.Store × Option SaveError :=
  match Client.saveCall stream events with
  | Except.error err => (store, some err)
  | Except.ok none => (store, none)
  | Except.ok (some call) =>
    match eventstore.AppendToStream store call.streamID call.options call.data now with
    | (store1, some err) => (store1, some (SaveError.Store err))
    | (store1, none) => (store1, none)

/-- The struct `Iterator`: `stream` holds the records not yet received (`none` is the nil
pointer), `event` the record received last. A read that fails on the way is not
modelled, so `err` stays empty. -/
structure Iterator where
  stream : Option (List eventstore.RecordedEvent)
  event : Option eventstore.RecordedEvent
  err : Option eventstore.Error
  deriving DecidableEq, Repr

/-- The method `Client.Get`. -/
def Client.Get (store : eventstore.Store) (id : String) (aggregate : String)
    (afterVersion : Nat) : Except eventstore.Error Iterator :=
  match eventstore.ReadStream store (aggregate ++ "_" ++ id) afterVersion count with
  | Except.error err =>
    if err = eventstore.Error.ErrStreamNotFound then
      Except.ok { stream := none, event := none, err := none }
    else Except.error err
  | Except.ok stream => Except.ok { stream := some stream, event := none, err := none }

/-- The method `Iterator.Next`: receives the next record, if there is one. -/
def Iterator.Next (i : Iterator) : Iterator × Bool :=
  match i.stream with
  | none => (i, false)
  | some [] => (i, false)
  | some (eventESDB :: rest) => ({ i with stream := some rest, event := some eventESDB }, true)

/-- The method `Iterator.Value`. The parameter `split` is `strings.Split` applied with
the constant `streamSeparator`, which is not among the sources. The result is `none`
where the Go code panics: no record received yet, or fewer than two parts in the name of
the stream. -/
def Iterator.Value (split : String → List String) (i : Iterator) : Option Event :=
  match i.event with
  | none => none
  | some ev =>
    let stream := split ev.StreamID
    match stream[1]?, stream[0]? with
    | some id, some aggregate =>
      some { AggregateID := id, Version := ev.EventNumber, TypeName := ev.EventType,
             Aggregate := aggregate, Timestamp := ev.CreatedDate, Data := ev.Data,
             Metadata := ev.UserMetadata }
    | _, _ => none

/-- The loop of a reader: `Next` until it returns false, `Value` after each step; `fuel`
bounds the number of steps. -/
def readAll (split : String → List String) : Nat → Iterator → List (Option Event)
  | 0, _ => []
  | fuel + 1, i =>
    let step := i.Next
    if step.2 then Iterator.Value split step.1 :: readAll split fuel step.1 else []

/-- A test event of package `esdb` that carries an aggregate, an id and a version. -/
def eventAt (aggregate id : String) (v : Nat) : Event :=
  { AggregateID := id, Version := v, Aggregate := aggregate, TypeName := "", Timestamp := 0,
    Data := [], Metadata := [] }

end esdb

namespace es

/-! ## Helper lemmas -/

theorem versions_eq_map (e : Events) : Events.versions e = e.map (fun v => v.Version) := by
  unfold Events.versions
  suffices h : ∀ (acc : List Nat),
      e.foldl (fun version v => version ++ [v.Version]) acc = acc ++ e.map (fun v => v.Version) by
    simpa using h []
  induction e with
  | nil => intro acc; simp
  | cons x xs ih => intro acc; simp [ih]

theorem unique_iff_nodup (e : Events) :
    Events.Unique e = true ↔ (e.map (fun v => v.Version)).Nodup := by
  unfold Events.Unique slices.Unique
  rw [versions_eq_map]
  simp only [beq_iff_eq]
  constructor
  · intro h
    have hs := List.dedup_sublist (e.map (fun v => v.Version))
    have := hs.eq_of_length h
    exact List.dedup_eq_self.mp this
  · intro h
    rw [List.dedup_eq_self.mpr h]

theorem getLastEvent_eq_tailEvent (ar : AggregateRoot) : ar.getLastEvent = tailEvent ar := by
  unfold AggregateRoot.getLastEvent tailEvent
  rcases ar with ⟨ver, st, pe⟩
  simp only
  rcases List.eq_nil_or_concat pe with hp | ⟨pi, pl, hp⟩
  · subst hp
    rcases List.eq_nil_or_concat st with hs | ⟨si, sl, hs⟩
    · subst hs; simp
    · subst hs; simp
  · subst hp; simp

theorem contains_versions_iff (ar : AggregateRoot) (v : Nat) :
    slices.Contains (Events.versions ar.state ++ Events.versions ar.pending) v = true ↔
      ∃ x ∈ ar.state ++ ar.pending, x.Version = v := by
  unfold slices.Contains
  rw [versions_eq_map, versions_eq_map]
  simp only [List.contains_eq_any_beq, List.any_eq_true, beq_iff_eq, List.mem_append, List.mem_map]
  constructor
  · rintro ⟨w, (⟨x, hx, rfl⟩ | ⟨x, hx, rfl⟩), hw⟩
    · exact ⟨x, Or.inl hx, hw.symm⟩
    · exact ⟨x, Or.inr hx, hw.symm⟩
  · rintro ⟨x, hx | hx, rfl⟩
    · exact ⟨x.Version, Or.inl ⟨x, hx, rfl⟩, rfl⟩
    · exact ⟨x.Version, Or.inr ⟨x, hx, rfl⟩, rfl⟩

theorem tailEvent_isSome_of_ne_nil (ar : AggregateRoot)
    (h : ar.pending ≠ [] ∨ ar.state ≠ []) : ∃ t, tailEvent ar = some t := by
  unfold tailEvent
  rcases ar with ⟨ver, st, pe⟩
  simp only at h ⊢
  rcases List.eq_nil_or_concat pe with hp | ⟨pi, pl, hp⟩
  · subst hp
    rcases List.eq_nil_or_concat st with hs | ⟨si, sl, hs⟩
    · subst hs; simp at h
    · subst hs; exact ⟨sl, by simp⟩
  · subst hp; exact ⟨pl, by simp⟩

theorem pending_eq_nil_of_length (ar : AggregateRoot) (h : ¬ ar.pending.length > 0) :
    ar.pending = [] := by
  cases hp : ar.pending with
  | nil => rfl
  | cons x xs => rw [hp] at h; simp at h

theorem apply_heldVersions_nodup (ar : AggregateRoot) (e : Event)
    (h : (heldVersions ar).Nodup) : (heldVersions (ar.Apply e).1).Nodup := by
  unfold AggregateRoot.Apply
  by_cases hc : slices.Contains (Events.versions ar.state ++ Events.versions ar.pending)
      e.Version = true
  · simpa [hc] using h
  · have hnot : ∀ x ∈ ar.state ++ ar.pending, x.Version ≠ e.Version := by
      intro x hx hv
      exact hc ((contains_versions_iff ar e.Version).mpr ⟨x, hx, hv⟩)
    have hnew : (heldVersions { ar with pending := ar.pending ++ [e] }).Nodup := by
      unfold heldVersions at h ⊢
      simp only [← List.append_assoc, List.map_append, List.map_cons, List.map_nil]
      rw [← List.map_append]
      refine List.Nodup.append h (by simp) ?_
      intro v hv1 hv2
      simp only [List.mem_singleton] at hv2
      obtain ⟨x, hx, hxv⟩ := List.mem_map.mp hv1
      exact hnot x hx (hxv.trans hv2)
    simp only [hc, if_false, Bool.false_eq_true]
    cases hl : ar.getLastEvent with
    | none => simpa using hnew
    | some l =>
      by_cases hm : (l.Version + 1) % versionModulus = e.Version
      · simpa [hm] using hnew
      · simpa [hm] using h

theorem reply_heldVersions_nodup (ar : AggregateRoot) (batch : List Event)
    (h : (heldVersions ar).Nodup) : (heldVersions (ar.Reply batch).1).Nodup := by
  unfold AggregateRoot.Reply
  by_cases hp : ar.pending.length > 0
  · simpa [hp] using h
  · have hnil := pending_eq_nil_of_length ar hp
    by_cases hu1 : Events.Unique batch = true
    · by_cases hu2 : Events.Unique (ar.state ++ batch) = true
      · simp only [hp, hu1, hu2, if_false, Bool.not_true, Bool.false_eq_true]
        cases hr : AggregateRoot.replyCheck ar.getLastEvent batch with
        | some err => simpa using h
        | none =>
          have := (unique_iff_nodup (ar.state ++ batch)).mp hu2
          simpa [heldVersions, hnil] using this
      · simpa [hp, hu1, hu2] using h
    · simpa [hp, hu1] using h

theorem sync_heldVersions (ar : AggregateRoot) (e : Event) :
    heldVersions (ar.Sync e).1 = heldVersions ar := by
  unfold AggregateRoot.Sync heldVersions
  cases hp : ar.pending with
  | nil => simp [hp]
  | cons head rest =>
    by_cases hv : head.Version = e.Version
    · simp [hv]
    · simp [hv, hp]

theorem reachable_heldVersions_nodup (ar : AggregateRoot) (h : Reachable ar) :
    (heldVersions ar).Nodup := by
  induction h with
  | zero => simp [heldVersions, AggregateRoot.zero]
  | apply ar e _ _ ih => exact apply_heldVersions_nodup ar e ih
  | reply ar batch _ _ ih => exact reply_heldVersions_nodup ar batch ih
  | sync ar e _ _ ih => rw [sync_heldVersions]; exact ih
  | advance ar _ ih => simpa [heldVersions, AggregateRoot.AdvanceVersion] using ih

theorem replyCheck_nil_last (batch : List Event) :
    AggregateRoot.replyCheck none batch = none := by
  induction batch with
  | nil => rfl
  | cons v rest ih => simpa [AggregateRoot.replyCheck] using ih

theorem replyCheck_none_iff (l : Event) (batch : List Event) :
    AggregateRoot.replyCheck (some l) batch = none ↔ ∀ v ∈ batch, l.Version < v.Version := by
  induction batch with
  | nil => simp [AggregateRoot.replyCheck]
  | cons v rest ih =>
    by_cases h : l.Version ≥ v.Version
    · simp only [AggregateRoot.replyCheck, h, if_true, List.mem_cons, forall_eq_or_imp]
      constructor
      · intro hc; cases hc
      · intro hc; omega
    · simp only [AggregateRoot.replyCheck, h, if_false, List.mem_cons, forall_eq_or_imp, ih]
      constructor
      · intro hc; exact ⟨by omega, hc⟩
      · intro hc; exact hc.2

theorem replyCheck_result (last : Option Event) (batch : List Event) :
    AggregateRoot.replyCheck last batch = none ∨
      AggregateRoot.replyCheck last batch = some Error.ErrVersionMismatch := by
  induction batch with
  | nil => left; rfl
  | cons v rest ih =>
    cases last with
    | none => simpa [AggregateRoot.replyCheck] using ih
    | some l =>
      by_cases h : l.Version ≥ v.Version
      · right; simp [AggregateRoot.replyCheck, h]
      · simpa [AggregateRoot.replyCheck, h] using ih

theorem getLastEvent_of_pending_nil (ar : AggregateRoot) (hp : ar.pending = []) :
    ar.getLastEvent = ar.state.getLast? := by
  rw [getLastEvent_eq_tailEvent]
  unfold tailEvent
  rw [hp]
  rfl

/-- With pending empty and no version held twice among state and batch, `Reply` is
decided by its loop alone. -/
theorem reply_of_nodup (ar : AggregateRoot) (batch : List Event) (hp : ar.pending = [])
    (hnd : ((ar.state ++ batch).map (fun v => v.Version)).Nodup) :
    ar.Reply batch =
      match AggregateRoot.replyCheck ar.state.getLast? batch with
      | some err => (ar, some err)
      | none => ({ ar with state := ar.state ++ batch }, none) := by
  have hu2 : Events.Unique (ar.state ++ batch) = true := (unique_iff_nodup _).mpr hnd
  have hu1 : Events.Unique batch = true := by
    rw [unique_iff_nodup]
    rw [List.map_append] at hnd
    exact (List.nodup_append.mp hnd).2.1
  unfold AggregateRoot.Reply
  rw [getLastEvent_of_pending_nil ar hp]
  simp [hp, hu1, hu2]

theorem reply_collision (ar : AggregateRoot) (batch : List Event) (hp : ar.pending = [])
    (hnd : ¬ ((ar.state ++ batch).map (fun v => v.Version)).Nodup) :
    ar.Reply batch = (ar, some Error.ErrDuplicateEvent) := by
  have hu2 : ¬ Events.Unique (ar.state ++ batch) = true := fun h =>
    hnd ((unique_iff_nodup _).mp h)
  unfold AggregateRoot.Reply
  by_cases hu1 : Events.Unique batch = true
  · simp [hp, hu1, hu2]
  · simp [hp, hu1]

/-! ## Apply -/

/-- C1: an event whose version is held neither in state nor in pending and, when there is
a tail event, is the tail version plus one, is accepted by `Apply`: no error, the event
is added at the end of pending, state and the version counter stay as they were. -/
theorem apply_appends_to_pending (ar : AggregateRoot) (e : Event)
    (hwf : e.WellFormed)
    (hstate : ∀ x ∈ ar.state, x.Version ≠ e.Version)
    (hpending : ∀ x ∈ ar.pending, x.Version ≠ e.Version)
    (htail : ∀ t, tailEvent ar = some t → e.Version = t.Version + 1) :
    ar.Apply e =
      ({ version := ar.version, state := ar.state, pending := ar.pending ++ [e] }, none) := by
  have hc : ¬ slices.Contains (Events.versions ar.state ++ Events.versions ar.pending)
      e.Version = true := by
    rw [contains_versions_iff]
    rintro ⟨x, hx, hv⟩
    rcases List.mem_append.mp hx with h | h
    · exact hstate x h hv
    · exact hpending x h hv
  unfold AggregateRoot.Apply
  simp only [hc, if_false, Bool.false_eq_true]
  rw [getLastEvent_eq_tailEvent]
  cases ht : tailEvent ar with
  | none => rfl
  | some t =>
    have h1 := htail t ht
    have h2 : (t.Version + 1) % versionModulus = e.Version := by
      rw [← h1]; exact Nat.mod_eq_of_lt hwf
    simp [h2]

theorem apply_appends_to_pending_witness :
    (({ version := 2, state := [eventWithVersion 1], pending := [eventWithVersion 2] } :
        AggregateRoot).Apply (eventWithVersion 3)) =
      ({ version := 2, state := [eventWithVersion 1],
         pending := [eventWithVersion 2, eventWithVersion 3] }, none) :=
  apply_appends_to_pending
    { version := 2, state := [eventWithVersion 1], pending := [eventWithVersion 2] }
    (eventWithVersion 3) (by decide) (by decide) (by decide)
    (by intro t ht; simp [tailEvent] at ht; subst ht; rfl)

/-- C2, as the code has it: when the root holds an event, a version that is held nowhere
and differs from the tail version plus one taken modulo 2 ^ 64 (the sum the source
computes on `uint64`) makes `Apply` fail with `ErrVersionMismatch`, the root untouched. -/
theorem apply_version_mismatch (ar : AggregateRoot) (e : Event)
    (hne : ar.pending ≠ [] ∨ ar.state ≠ [])
    (hfresh : ∀ x ∈ ar.state ++ ar.pending, x.Version ≠ e.Version)
    (htail : ∀ t, tailEvent ar = some t → e.Version ≠ (t.Version + 1) % 2 ^ 64) :
    ar.Apply e = (ar, some Error.ErrVersionMismatch) := by
  have hc : ¬ slices.Contains (Events.versions ar.state ++ Events.versions ar.pending)
      e.Version = true := by
    rw [contains_versions_iff]
    rintro ⟨x, hx, hv⟩
    exact hfresh x hx hv
  obtain ⟨t, ht⟩ := tailEvent_isSome_of_ne_nil ar hne
  have h1 : ¬ (t.Version + 1) % versionModulus = e.Version := fun h => htail t ht h.symm
  unfold AggregateRoot.Apply
  simp only [hc, if_false, Bool.false_eq_true]
  rw [getLastEvent_eq_tailEvent, ht]
  simp [h1]

theorem apply_version_mismatch_witness :
    (({ version := 1, state := [], pending := [eventWithVersion 1] } :
        AggregateRoot).Apply (eventWithVersion 0)) =
      ({ version := 1, state := [], pending := [eventWithVersion 1] },
        some Error.ErrVersionMismatch) :=
  apply_version_mismatch
    { version := 1, state := [], pending := [eventWithVersion 1] }
    (eventWithVersion 0) (Or.inl (by decide)) (by decide)
    (by intro t ht; simp [tailEvent] at ht; subst ht; decide)

/-- C2 fails as stated: with the largest `uint64` version as tail, version 0 is held
nowhere and is not the tail version plus one, yet `Apply` accepts it, because the sum
wraps around to 0. -/
theorem apply_version_mismatch_counterexample :
    (eventWithVersion 0).WellFormed ∧
    (∀ x ∈ [eventWithVersion (2 ^ 64 - 1)], x.WellFormed) ∧
    (∀ x ∈ [eventWithVersion (2 ^ 64 - 1)] ++ [], x.Version ≠ (eventWithVersion 0).Version) ∧
    tailEvent { version := 0, state := [eventWithVersion (2 ^ 64 - 1)], pending := [] } =
      some (eventWithVersion (2 ^ 64 - 1)) ∧
    (eventWithVersion 0).Version ≠ (eventWithVersion (2 ^ 64 - 1)).Version + 1 ∧
    (({ version := 0, state := [eventWithVersion (2 ^ 64 - 1)], pending := [] } :
        AggregateRoot).Apply (eventWithVersion 0)) =
      ({ version := 0, state := [eventWithVersion (2 ^ 64 - 1)],
         pending := [eventWithVersion 0] }, none) := by
  refine ⟨by decide, by decide, by decide, by rfl, by decide, by rfl⟩

/-- C3, as the code has it: a root that holds no event accepts any event as its first
one, whatever its version: `Apply` returns no error and pending becomes that event. -/
theorem apply_first_event_any_version (ar : AggregateRoot) (e : Event)
    (hpending : ar.pending = []) (hstate : ar.state = []) :
    ar.Apply e = ({ version := ar.version, state := [], pending := [e] }, none) := by
  rcases ar with ⟨ver, st, pe⟩
  simp only at hpending hstate
  subst hpending hstate
  simp [AggregateRoot.Apply, AggregateRoot.getLastEvent, slices.Contains, Events.versions]

theorem apply_first_event_any_version_witness :
    AggregateRoot.zero.Apply (eventWithVersion 5) =
      ({ version := 0, state := [], pending := [eventWithVersion 5] }, none) :=
  apply_first_event_any_version AggregateRoot.zero (eventWithVersion 5) rfl rfl

/-- C3 fails as stated: on the zero-value root an event of version 7, which is not 1, is
applied without error. -/
theorem apply_first_event_counterexample :
    AggregateRoot.zero.pending = [] ∧ AggregateRoot.zero.state = [] ∧
    (eventWithVersion 7).Version ≠ 1 ∧
    (AggregateRoot.zero.Apply (eventWithVersion 7)).2 ≠ some Error.ErrVersionMismatch ∧
    AggregateRoot.zero.Apply (eventWithVersion 7) =
      ({ version := 0, state := [], pending := [eventWithVersion 7] }, none) := by
  refine ⟨rfl, rfl, by decide, by decide, by rfl⟩

/-- C4: an event whose version is the version of an event held in pending or in state
makes `Apply` fail with `ErrDuplicateEvent`, whether or not that version is the tail
version plus one, and pending (with the rest of the root) stays as it was. -/
theorem apply_duplicate (ar : AggregateRoot) (e : Event)
    (hdup : ∃ x, (x ∈ ar.pending ∨ x ∈ ar.state) ∧ x.Version = e.Version) :
    ar.Apply e = (ar, some Error.ErrDuplicateEvent) ∧
      (ar.Apply e).1.pending = ar.pending := by
  have hc : slices.Contains (Events.versions ar.state ++ Events.versions ar.pending)
      e.Version = true := by
    rw [contains_versions_iff]
    obtain ⟨x, hx, hv⟩ := hdup
    exact ⟨x, List.mem_append.mpr hx.symm, hv⟩
  have h : ar.Apply e = (ar, some Error.ErrDuplicateEvent) := by
    unfold AggregateRoot.Apply
    simp only [hc, if_true]
  exact ⟨h, by rw [h]⟩

theorem apply_duplicate_witness :
    (({ version := 2, state := [eventWithVersion 1], pending := [eventWithVersion 2] } :
        AggregateRoot).Apply (eventWithVersion 1)) =
      ({ version := 2, state := [eventWithVersion 1], pending := [eventWithVersion 2] },
        some Error.ErrDuplicateEvent) ∧
    (({ version := 2, state := [eventWithVersion 1], pending := [eventWithVersion 2] } :
        AggregateRoot).Apply (eventWithVersion 1)).1.pending = [eventWithVersion 2] :=
  apply_duplicate
    { version := 2, state := [eventWithVersion 1], pending := [eventWithVersion 2] }
    (eventWithVersion 1) ⟨eventWithVersion 1, Or.inr (by simp), rfl⟩

/-! ## Sync -/

/-- C5: when pending is non-empty and the version of the argument is the version of the
oldest pending event, `Sync` returns no error, pending loses its first element, state
gains that element (the one held in pending, not the argument) at its end, and the
version counter stays as it was. -/
theorem sync_moves_head (ar : AggregateRoot) (head : Event) (rest : List Event) (e : Event)
    (hp : ar.pending = head :: rest) (hv : e.Version = head.Version) :
    ar.Sync e = ({ version := ar.version, state := ar.state ++ [head], pending := rest }, none) := by
  unfold AggregateRoot.Sync
  rw [hp]
  simp [hv]

theorem sync_moves_head_witness :
    (({ version := 3, state := [eventWithVersion 1],
        pending := [eventWithVersion 2, eventWithVersion 3] } : AggregateRoot).Sync
        { eventWithVersion 2 with AggregateID := "other", Timestamp := 9 }) =
      ({ version := 3, state := [eventWithVersion 1, eventWithVersion 2],
         pending := [eventWithVersion 3] }, none) :=
  sync_moves_head
    { version := 3, state := [eventWithVersion 1],
      pending := [eventWithVersion 2, eventWithVersion 3] }
    (eventWithVersion 2) [eventWithVersion 3]
    { eventWithVersion 2 with AggregateID := "other", Timestamp := 9 } rfl rfl

/-- C6: when pending is non-empty, an argument whose version differs from the version of
the oldest pending event makes `Sync` fail with `ErrVersionMismatch`; and in a state
reachable from the zero-value root, every pending event other than the head is such an
argument. -/
theorem sync_version_mismatch (ar : AggregateRoot) (head : Event) (rest : List Event)
    (hp : ar.pending = head :: rest) :
    (∀ e : Event, e.Version ≠ head.Version →
      ar.Sync e = (ar, some Error.ErrVersionMismatch)) ∧
    (Reachable ar → ∀ e ∈ rest, ar.Sync e = (ar, some Error.ErrVersionMismatch)) := by
  have hgen : ∀ e : Event, e.Version ≠ head.Version →
      ar.Sync e = (ar, some Error.ErrVersionMismatch) := by
    intro e hv
    unfold AggregateRoot.Sync
    rw [hp]
    simp [Ne.symm hv]
  refine ⟨hgen, ?_⟩
  intro hr e he
  apply hgen
  have hnd := reachable_heldVersions_nodup ar hr
  unfold heldVersions at hnd
  rw [hp, List.map_append, List.map_cons] at hnd
  have hnd2 := (List.nodup_append.mp hnd).2.1
  rw [List.nodup_cons] at hnd2
  intro hv
  exact hnd2.1 (List.mem_map.mpr ⟨e, he, hv⟩)

theorem sync_version_mismatch_witness :
    (({ version := 0, state := [], pending := [eventWithVersion 1, eventWithVersion 2] } :
        AggregateRoot).Sync (eventWithVersion 7) =
      ({ version := 0, state := [], pending := [eventWithVersion 1, eventWithVersion 2] },
        some Error.ErrVersionMismatch)) ∧
    (({ version := 0, state := [], pending := [eventWithVersion 1, eventWithVersion 2] } :
        AggregateRoot).Sync (eventWithVersion 2) =
      ({ version := 0, state := [], pending := [eventWithVersion 1, eventWithVersion 2] },
        some Error.ErrVersionMismatch)) :=
  have h := sync_version_mismatch
    { version := 0, state := [], pending := [eventWithVersion 1, eventWithVersion 2] }
    (eventWithVersion 1) [eventWithVersion 2] rfl
  ⟨h.1 (eventWithVersion 7) (by decide),
   h.2 (Reachable.apply _ (eventWithVersion 2)
          (Reachable.apply _ (eventWithVersion 1) Reachable.zero (by decide)) (by decide))
       (eventWithVersion 2) (by simp)⟩

/-- C7: when pending is empty, `Sync` fails with `ErrSyncNoEvents` for every argument and
every content of state. -/
theorem sync_no_events (ar : AggregateRoot) (e : Event) (hp : ar.pending = []) :
    ar.Sync e = (ar, some Error.ErrSyncNoEvents) := by
  unfold AggregateRoot.Sync
  rw [hp]

theorem sync_no_events_witness :
    (({ version := 1, state := [eventWithVersion 1], pending := [] } : AggregateRoot).Sync
        (eventWithVersion 1)) =
      ({ version := 1, state := [eventWithVersion 1], pending := [] },
        some Error.ErrSyncNoEvents) :=
  sync_no_events { version := 1, state := [eventWithVersion 1], pending := [] }
    (eventWithVersion 1) rfl

/-! ## Reply -/

/-- C8, as the code has it: when pending is empty, state holds no version twice, no event
of the batch has the version of a state event, the versions of the batch are strictly
ascending in batch order and, when state is non-empty, all greater than the version of the
last state event, `Reply` returns no error, state becomes the old state followed by the
batch in batch order, pending remains empty and the version counter stays as it was. -/
theorem reply_appends_to_state (ar : AggregateRoot) (batch : List Event)
    (hp : ar.pending = [])
    (hasc : (batch.map (fun v => v.Version)).Chain' (fun a b => a < b))
    (hlast : ∀ t, ar.state.getLast? = some t → ∀ v ∈ batch, t.Version < v.Version)
    (hstate : (ar.state.map (fun v => v.Version)).Nodup)
    (hdisj : ∀ s ∈ ar.state, ∀ v ∈ batch, s.Version ≠ v.Version) :
    ar.Reply batch =
      ({ version := ar.version, state := ar.state ++ batch, pending := [] }, none) := by
  have hbatch : (batch.map (fun v => v.Version)).Nodup := by
    have hpw := List.chain'_iff_pairwise.mp hasc
    exact hpw.imp (fun h => Nat.ne_of_lt h)
  have hnd : ((ar.state ++ batch).map (fun v => v.Version)).Nodup := by
    rw [List.map_append]
    refine List.nodup_append.mpr ⟨hstate, hbatch, ?_⟩
    intro x hx1 hx2
    obtain ⟨a, ha, hax⟩ := List.mem_map.mp hx1
    obtain ⟨b, hb, hbx⟩ := List.mem_map.mp hx2
    exact hdisj a ha b hb (hax.trans hbx.symm)
  have hcheck : AggregateRoot.replyCheck ar.state.getLast? batch = none := by
    cases hl : ar.state.getLast? with
    | none => exact replyCheck_nil_last batch
    | some t => exact (replyCheck_none_iff t batch).mpr (hlast t hl)
  rw [reply_of_nodup ar batch hp hnd, hcheck]
  rcases ar with ⟨ver, st, pe⟩
  simp only at hp
  subst hp
  rfl

theorem reply_appends_to_state_witness :
    (({ version := 0, state := [eventWithVersion 1, eventWithVersion 2], pending := [] } :
        AggregateRoot).Reply [eventWithVersion 3, eventWithVersion 5]) =
      ({ version := 0,
         state := [eventWithVersion 1, eventWithVersion 2, eventWithVersion 3,
                   eventWithVersion 5],
         pending := [] }, none) :=
  reply_appends_to_state
    { version := 0, state := [eventWithVersion 1, eventWithVersion 2], pending := [] }
    [eventWithVersion 3, eventWithVersion 5] rfl (by simp [eventWithVersion])
    (by intro t ht; simp at ht; subst ht; decide) (by decide) (by decide)

/-- C8 fails as stated: replying versions 3, 1 into the zero-value root is accepted and
gives a state whose last version is 1; the one-event batch of version 3 is then ascending
and above the last state version, yet `Reply` fails with `ErrDuplicateEvent`. -/
theorem reply_appends_to_state_counterexample :
    AggregateRoot.zero.Reply [eventWithVersion 3, eventWithVersion 1] =
      ({ version := 0, state := [eventWithVersion 3, eventWithVersion 1], pending := [] },
        none) ∧
    ([eventWithVersion 3].map (fun v => v.Version)).Chain' (fun a b => a < b) ∧
    [eventWithVersion 3, eventWithVersion 1].getLast? = some (eventWithVersion 1) ∧
    (∀ v ∈ [eventWithVersion 3], (eventWithVersion 1).Version < v.Version) ∧
    (({ version := 0, state := [eventWithVersion 3, eventWithVersion 1], pending := [] } :
        AggregateRoot).Reply [eventWithVersion 3]) =
      ({ version := 0, state := [eventWithVersion 3, eventWithVersion 1], pending := [] },
        some Error.ErrDuplicateEvent) := by
  refine ⟨by rfl, by simp, by rfl, by decide, by rfl⟩

theorem apply_refused_when_next_held (ar : AggregateRoot) (t : Event) (e : Event)
    (ht : ar.getLastEvent = some t)
    (hheld : slices.Contains (Events.versions ar.state ++ Events.versions ar.pending)
      ((t.Version + 1) % versionModulus) = true) :
    (ar.Apply e).2.isSome = true := by
  unfold AggregateRoot.Apply
  by_cases hc : slices.Contains (Events.versions ar.state ++ Events.versions ar.pending)
      e.Version = true
  · simp [hc]
  · simp only [hc, if_false, Bool.false_eq_true, ht]
    by_cases hm : (t.Version + 1) % versionModulus = e.Version
    · rw [hm] at hheld
      exact absurd hheld hc
    · simp [hm]

/-- C9: the code at the input where it parts from the claim. The batch of versions 2, 1
has no version collision and its second version is not greater than the one before it,
yet `Reply` on the zero-value root returns no error and state becomes that batch: the
loop reads `last` once, before the batch, and never moves it on. The same two events
replied one at a time are refused with `ErrVersionMismatch` at the second, and after the
accepted batch every `Apply` returns an error. -/
theorem reply_descending_batch_accepted :
    AggregateRoot.zero.Reply [eventWithVersion 2, eventWithVersion 1] =
      ({ version := 0, state := [eventWithVersion 2, eventWithVersion 1], pending := [] },
        none) ∧
    (AggregateRoot.zero.Reply [eventWithVersion 2]).1.Reply [eventWithVersion 1] =
      ({ version := 0, state := [eventWithVersion 2], pending := [] },
        some Error.ErrVersionMismatch) ∧
    (∀ e : Event,
      (({ version := 0, state := [eventWithVersion 2, eventWithVersion 1], pending := [] } :
        AggregateRoot).Apply e).2.isSome = true) :=
  ⟨by rfl, by rfl,
   fun e => apply_refused_when_next_held _ (eventWithVersion 1) e (by rfl) (by decide)⟩

/-- C10: when pending is empty, `Reply` fails with `ErrDuplicateEvent` whenever two
events at different places of the batch have the same version or an event of the batch
has the version of an event of state; so a non-empty batch that was replied without
error fails with `ErrDuplicateEvent` when it is replied again. -/
theorem reply_duplicate (ar : AggregateRoot) (batch : List Event) (hp : ar.pending = []) :
    ((∃ i j : Fin batch.length, i ≠ j ∧ (batch.get i).Version = (batch.get j).Version) →
      ar.Reply batch = (ar, some Error.ErrDuplicateEvent)) ∧
    ((∃ v ∈ batch, ∃ s ∈ ar.state, v.Version = s.Version) →
      ar.Reply batch = (ar, some Error.ErrDuplicateEvent)) ∧
    (batch ≠ [] → (ar.Reply batch).2 = none →
      (ar.Reply batch).1.Reply batch = ((ar.Reply batch).1, some Error.ErrDuplicateEvent)) := by
  have hstate : ∀ (r : AggregateRoot), r.pending = [] →
      (∃ v ∈ batch, ∃ s ∈ r.state, v.Version = s.Version) →
      r.Reply batch = (r, some Error.ErrDuplicateEvent) := by
    rintro r hr ⟨v, hv, x, hx, hvx⟩
    apply reply_collision r batch hr
    intro hnd
    rw [List.map_append] at hnd
    have hd := (List.nodup_append.mp hnd).2.2
    exact hd (List.mem_map.mpr ⟨x, hx, rfl⟩) (List.mem_map.mpr ⟨v, hv, hvx⟩)
  refine ⟨?_, hstate ar hp, ?_⟩
  · rintro ⟨i, j, hij, hv⟩
    apply reply_collision ar batch hp
    intro hnd
    rw [List.map_append] at hnd
    have hb := (List.nodup_append.mp hnd).2.1
    have heq := List.inj_on_of_nodup_map hb (List.get_mem batch i.1 i.2)
      (List.get_mem batch j.1 j.2) hv
    exact hij ((List.Nodup.get_inj_iff (List.Nodup.of_map _ hb)).mp heq)
  · intro hne hok
    by_cases hnd : ((ar.state ++ batch).map (fun v => v.Version)).Nodup
    · have hrep := reply_of_nodup ar batch hp hnd
      rcases replyCheck_result ar.state.getLast? batch with hr | hr
      · rw [hr] at hrep
        rw [hrep]
        apply hstate
        · exact hp
        · obtain ⟨v, hv⟩ := List.exists_mem_of_ne_nil batch hne
          exact ⟨v, hv, v, List.mem_append.mpr (Or.inr hv), rfl⟩
      · rw [hr] at hrep
        rw [hrep] at hok
        cases hok
    · rw [reply_collision ar batch hp hnd] at hok
      cases hok

theorem reply_duplicate_witness :
    (({ version := 0, state := [eventWithVersion 1], pending := [] } :
        AggregateRoot).Reply [eventWithVersion 2, eventWithVersion 2] =
      ({ version := 0, state := [eventWithVersion 1], pending := [] },
        some Error.ErrDuplicateEvent)) ∧
    (AggregateRoot.zero.Reply [eventWithVersion 1]).1.Reply [eventWithVersion 1] =
      ((AggregateRoot.zero.Reply [eventWithVersion 1]).1, some Error.ErrDuplicateEvent) :=
  ⟨(reply_duplicate { version := 0, state := [eventWithVersion 1], pending := [] }
      [eventWithVersion 2, eventWithVersion 2] rfl).1
      ⟨⟨0, by decide⟩, ⟨1, by decide⟩, by decide, rfl⟩,
   (reply_duplicate AggregateRoot.zero [eventWithVersion 1] rfl).2.2 (by simp) (by rfl)⟩

/-- C11: when pending is non-empty, `Reply` fails with the "aggregate is already
initialised" error for every batch, the empty one and those with colliding or unordered
versions included; that error is none of `ErrDuplicateEvent`, `ErrVersionMismatch` and
`ErrSyncNoEvents`, neither as a value nor by its message. -/
theorem reply_already_initialised (ar : AggregateRoot) (batch : List Event)
    (hp : ar.pending ≠ []) :
    ar.Reply batch = (ar, some Error.AlreadyInitialised) ∧
    (ar.Reply batch).2 ≠ some Error.ErrDuplicateEvent ∧
    (ar.Reply batch).2 ≠ some Error.ErrVersionMismatch ∧
    (ar.Reply batch).2 ≠ some Error.ErrSyncNoEvents ∧
    Error.AlreadyInitialised.message ≠ Error.ErrDuplicateEvent.message ∧
    Error.AlreadyInitialised.message ≠ Error.ErrVersionMismatch.message ∧
    Error.AlreadyInitialised.message ≠ Error.ErrSyncNoEvents.message := by
  have hlen : ar.pending.length > 0 := List.length_pos.mpr hp
  have h : ar.Reply batch = (ar, some Error.AlreadyInitialised) := by
    unfold AggregateRoot.Reply
    simp only [hlen, if_true]
  refine ⟨h, ?_, ?_, ?_, by decide, by decide, by decide⟩ <;> rw [h] <;> simp

theorem reply_already_initialised_witness :
    (({ version := 1, state := [], pending := [eventWithVersion 1] } : AggregateRoot).Reply
        [eventWithVersion 3, eventWithVersion 3, eventWithVersion 0]) =
      ({ version := 1, state := [], pending := [eventWithVersion 1] },
        some Error.AlreadyInitialised) ∧
    (({ version := 1, state := [], pending := [eventWithVersion 1] } : AggregateRoot).Reply
        []) =
      ({ version := 1, state := [], pending := [eventWithVersion 1] },
        some Error.AlreadyInitialised) :=
  ⟨(reply_already_initialised
      { version := 1, state := [], pending := [eventWithVersion 1] }
      [eventWithVersion 3, eventWithVersion 3, eventWithVersion 0] (by simp)).1,
   (reply_already_initialised
      { version := 1, state := [], pending := [eventWithVersion 1] } [] (by simp)).1⟩

/-! ## Errors leave the root as it was -/

/-- C12: whenever `Apply`, `Reply` or `Sync` returns an error, the root after the call
(pending, state and version counter) is the root before the call. -/
theorem error_leaves_root_unchanged (ar : AggregateRoot) (e : Event) (batch : List Event) :
    ((ar.Apply e).2 ≠ none → (ar.Apply e).1 = ar) ∧
    ((ar.Reply batch).2 ≠ none → (ar.Reply batch).1 = ar) ∧
    ((ar.Sync e).2 ≠ none → (ar.Sync e).1 = ar) := by
  refine ⟨?_, ?_, ?_⟩
  · unfold AggregateRoot.Apply
    by_cases hc : slices.Contains (Events.versions ar.state ++ Events.versions ar.pending)
        e.Version = true
    · simp [hc]
    · simp only [hc, if_false, Bool.false_eq_true]
      cases ar.getLastEvent with
      | none => simp
      | some l =>
        by_cases hm : (l.Version + 1) % versionModulus = e.Version
        · simp [hm]
        · simp [hm]
  · unfold AggregateRoot.Reply
    by_cases hp : ar.pending.length > 0
    · simp [hp]
    · by_cases hu1 : Events.Unique batch = true
      · by_cases hu2 : Events.Unique (ar.state ++ batch) = true
        · simp only [hp, hu1, hu2, if_false, Bool.not_true, Bool.false_eq_true]
          cases AggregateRoot.replyCheck ar.getLastEvent batch with
          | none => simp
          | some err => simp
        · simp [hp, hu1, hu2]
      · simp [hp, hu1]
  · unfold AggregateRoot.Sync
    cases ar.pending with
    | nil => simp
    | cons head rest =>
      by_cases hv : head.Version = e.Version
      · simp [hv]
      · simp [hv]

theorem error_leaves_root_unchanged_witness :
    (({ version := 2, state := [eventWithVersion 1], pending := [] } : AggregateRoot).Reply
        [eventWithVersion 2, eventWithVersion 0]).1 =
      { version := 2, state := [eventWithVersion 1], pending := [] } :=
  (error_leaves_root_unchanged
    { version := 2, state := [eventWithVersion 1], pending := [] }
    (eventWithVersion 1) [eventWithVersion 2, eventWithVersion 0]).2.1 (by decide)

/-! ## Invariants of reachable states -/

/-- C13: in every state reachable from the zero-value root by `Apply`, `Reply`, `Sync`
and `AdvanceVersion` calls, no two events among state and pending have the same version:
state holds no version twice, pending holds no version twice, and no version of state is
a version of pending. -/
theorem reachable_versions_unique (ar : AggregateRoot) (h : Reachable ar) :
    ((ar.state ++ ar.pending).map (fun v => v.Version)).Nodup ∧
    (ar.state.map (fun v => v.Version)).Nodup ∧
    (ar.pending.map (fun v => v.Version)).Nodup ∧
    (∀ s ∈ ar.state, ∀ p ∈ ar.pending, s.Version ≠ p.Version) := by
  have hnd := reachable_heldVersions_nodup ar h
  unfold heldVersions at hnd
  refine ⟨hnd, ?_, ?_, ?_⟩
  · rw [List.map_append] at hnd
    exact (List.nodup_append.mp hnd).1
  · rw [List.map_append] at hnd
    exact (List.nodup_append.mp hnd).2.1
  · rw [List.map_append] at hnd
    intro s hs p hp hv
    exact (List.nodup_append.mp hnd).2.2 (List.mem_map.mpr ⟨s, hs, rfl⟩)
      (List.mem_map.mpr ⟨p, hp, hv.symm⟩)

theorem reachable_versions_unique_witness :
    (([eventWithVersion 3, eventWithVersion 1] ++ [eventWithVersion 2]).map
      (fun v => v.Version)).Nodup :=
  (reachable_versions_unique
    { version := 0, state := [eventWithVersion 3, eventWithVersion 1],
      pending := [eventWithVersion 2] }
    (Reachable.apply _ (eventWithVersion 2)
      (Reachable.reply _ [eventWithVersion 3, eventWithVersion 1] Reachable.zero (by decide))
      (by decide))).1

theorem tailList_getLast (ar : AggregateRoot) :
    (ar.state.getLast?.toList ++ ar.pending).getLast? = tailEvent ar := by
  unfold tailEvent
  rw [List.getLast?_append]
  cases hp : ar.pending.getLast? with
  | some t => simp
  | none =>
    cases hs : ar.state.getLast? with
    | none => simp [Option.toList]
    | some t => simp [Option.toList]

theorem apply_pendingChain (ar : AggregateRoot) (e : Event) (h : pendingChain ar) :
    pendingChain (ar.Apply e).1 := by
  unfold AggregateRoot.Apply
  by_cases hc : slices.Contains (Events.versions ar.state ++ Events.versions ar.pending)
      e.Version = true
  · simpa [hc] using h
  · simp only [hc, if_false, Bool.false_eq_true]
    cases hl : ar.getLastEvent with
    | none =>
      rw [getLastEvent_eq_tailEvent, ← tailList_getLast] at hl
      have hnil := List.getLast?_eq_none_iff.mp hl
      have hs : ar.state.getLast?.toList = [] := (List.append_eq_nil.mp hnil).1
      have hp : ar.pending = [] := (List.append_eq_nil.mp hnil).2
      simp [pendingChain, hs, hp]
    | some l =>
      by_cases hm : (l.Version + 1) % versionModulus = e.Version
      · simp only [hm, ne_eq, not_true_eq_false, if_false]
        unfold pendingChain at h ⊢
        simp only
        rw [← List.append_assoc]
        refine List.Chain'.append h (List.chain'_singleton e) ?_
        intro x hx y hy
        rw [tailList_getLast, ← getLastEvent_eq_tailEvent, hl] at hx
        simp only [Option.mem_def, Option.some.injEq] at hx
        simp only [List.head?_cons, Option.mem_def, Option.some.injEq] at hy
        subst hx hy
        exact hm.symm
      · simpa [hm] using h

theorem reply_pendingChain (ar : AggregateRoot) (batch : List Event) (h : pendingChain ar) :
    pendingChain (ar.Reply batch).1 := by
  unfold AggregateRoot.Reply
  by_cases hp : ar.pending.length > 0
  · simpa [hp] using h
  · have hnil := pending_eq_nil_of_length ar hp
    by_cases hu1 : Events.Unique batch = true
    · by_cases hu2 : Events.Unique (ar.state ++ batch) = true
      · simp only [hp, hu1, hu2, if_false, Bool.not_true, Bool.false_eq_true]
        cases hr : AggregateRoot.replyCheck ar.getLastEvent batch with
        | some err => simpa using h
        | none =>
          unfold pendingChain
          simp only [hnil, List.append_nil]
          cases (ar.state ++ batch).getLast? with
          | none => simp [Option.toList]
          | some t => simp [Option.toList]
      · simpa [hp, hu1, hu2] using h
    · simpa [hp, hu1] using h

theorem sync_pendingChain (ar : AggregateRoot) (e : Event) (h : pendingChain ar) :
    pendingChain (ar.Sync e).1 := by
  unfold AggregateRoot.Sync
  cases hp : ar.pending with
  | nil => simpa [hp] using h
  | cons head rest =>
    by_cases hv : head.Version = e.Version
    · simp only [hv, ne_eq, not_true_eq_false, if_false]
      unfold pendingChain at h ⊢
      rw [hp] at h
      have h2 := List.Chain'.right_of_append h
      simpa [Option.toList] using h2
    · simp only [hv, ne_eq, not_false_eq_true, if_true]
      simpa [hp, pendingChain] using h

theorem reachable_pendingChain (ar : AggregateRoot) (h : Reachable ar) : pendingChain ar := by
  induction h with
  | zero => simp [pendingChain, AggregateRoot.zero, Option.toList]
  | apply ar e _ _ ih => exact apply_pendingChain ar e ih
  | reply ar batch _ _ ih => exact reply_pendingChain ar batch ih
  | sync ar e _ _ ih => exact sync_pendingChain ar e ih
  | advance ar _ ih => simpa [pendingChain, AggregateRoot.AdvanceVersion] using ih

/-- C14, as the code has it: in every state reachable from the zero-value root by `Apply`,
`Reply` and `Sync` calls (and `AdvanceVersion` calls as well), the versions of state
followed by those of pending never repeat, and every pending event has the version of the
event held just before it plus one modulo 2 ^ 64; nothing makes the sequence start at 1 or
makes the versions of state increasing or free of gaps. -/
theorem reachable_versions_sequence (ar : AggregateRoot) (h : Reachable ar) :
    (heldVersions ar).Nodup ∧
    List.Chain' (fun a b : Event => b.Version = (a.Version + 1) % 2 ^ 64)
      (ar.state.getLast?.toList ++ ar.pending) :=
  ⟨reachable_heldVersions_nodup ar h, reachable_pendingChain ar h⟩

theorem reachable_versions_sequence_witness :
    (heldVersions { version := 0, state := [eventWithVersion 3, eventWithVersion 1],
                    pending := [eventWithVersion 2] }).Nodup ∧
    List.Chain' (fun a b : Event => b.Version = (a.Version + 1) % 2 ^ 64)
      ([eventWithVersion 3, eventWithVersion 1].getLast?.toList ++ [eventWithVersion 2]) :=
  reachable_versions_sequence
    { version := 0, state := [eventWithVersion 3, eventWithVersion 1],
      pending := [eventWithVersion 2] }
    (Reachable.apply _ (eventWithVersion 2)
      (Reachable.reply _ [eventWithVersion 3, eventWithVersion 1] Reachable.zero (by decide))
      (by decide))

/-- C14 fails as stated: applying an event of version 7 to the zero-value root succeeds,
and the versions held are then 7 alone, not the sequence 1, ..., n for the one event
held; replying versions 3, 1 to the zero-value root succeeds as well and leaves the
versions 3, 1, not 1, 2. -/
theorem reachable_versions_sequence_counterexample :
    AggregateRoot.zero.Apply (eventWithVersion 7) =
      ({ version := 0, state := [], pending := [eventWithVersion 7] }, none) ∧
    heldVersions { version := 0, state := [], pending := [eventWithVersion 7] } ≠
      List.range' 1
        (heldVersions { version := 0, state := [], pending := [eventWithVersion 7] }).length ∧
    AggregateRoot.zero.Reply [eventWithVersion 3, eventWithVersion 1] =
      ({ version := 0, state := [eventWithVersion 3, eventWithVersion 1], pending := [] },
        none) ∧
    heldVersions { version := 0, state := [eventWithVersion 3, eventWithVersion 1],
                   pending := [] } ≠
      List.range' 1
        (heldVersions { version := 0, state := [eventWithVersion 3, eventWithVersion 1],
                        pending := [] }).length := by
  refine ⟨by rfl, by decide, by rfl, by decide⟩

theorem apply_result (ar : AggregateRoot) (e : Event) :
    (ar.Apply e).1 = ar ∨ (ar.Apply e).1 = { ar with pending := ar.pending ++ [e] } := by
  unfold AggregateRoot.Apply
  by_cases hc : slices.Contains (Events.versions ar.state ++ Events.versions ar.pending)
      e.Version = true
  · simp [hc]
  · simp only [hc, if_false, Bool.false_eq_true]
    cases ar.getLastEvent with
    | none => simp
    | some l =>
      by_cases hm : (l.Version + 1) % versionModulus = e.Version
      · simp [hm]
      · simp [hm]

theorem reply_result (ar : AggregateRoot) (batch : List Event) :
    (ar.Reply batch).1 = ar ∨ (ar.Reply batch).1 = { ar with state := ar.state ++ batch } := by
  unfold AggregateRoot.Reply
  by_cases hp : ar.pending.length > 0
  · simp [hp]
  · by_cases hu1 : Events.Unique batch = true
    · by_cases hu2 : Events.Unique (ar.state ++ batch) = true
      · simp only [hp, hu1, hu2, if_false, Bool.not_true, Bool.false_eq_true]
        cases AggregateRoot.replyCheck ar.getLastEvent batch with
        | none => simp
        | some err => simp
      · simp [hp, hu1, hu2]
    · simp [hp, hu1]

theorem sync_result (ar : AggregateRoot) (e : Event) :
    (ar.Sync e).1 = ar ∨
      ∃ head rest, ar.pending = head :: rest ∧
        (ar.Sync e).1 = { ar with state := ar.state ++ [head], pending := rest } := by
  unfold AggregateRoot.Sync
  cases hp : ar.pending with
  | nil => simp
  | cons head rest =>
    by_cases hv : head.Version = e.Version
    · right; exact ⟨head, rest, rfl, by simp [hv]⟩
    · simp [hv]

theorem stamped_versions_le (ar : AggregateRoot) (h : ReachableStamped ar) :
    ∀ e ∈ ar.state ++ ar.pending, e.Version ≤ ar.version := by
  induction h with
  | zero => simp [AggregateRoot.zero]
  | apply ar e _ he ih =>
    rcases apply_result ar e with hr | hr
    · rw [hr]; exact ih
    · rw [hr]
      intro x hx
      simp only [List.mem_append, List.mem_singleton] at hx
      rcases hx with hx | hx | hx
      · exact ih x (List.mem_append.mpr (Or.inl hx))
      · exact ih x (List.mem_append.mpr (Or.inr hx))
      · rw [hx]; exact he
  | reply ar batch _ hb ih =>
    rcases reply_result ar batch with hr | hr
    · rw [hr]; exact ih
    · rw [hr]
      intro x hx
      simp only [List.mem_append] at hx
      rcases hx with (hx | hx) | hx
      · exact ih x (List.mem_append.mpr (Or.inl hx))
      · exact hb x hx
      · exact ih x (List.mem_append.mpr (Or.inr hx))
  | sync ar e _ ih =>
    rcases sync_result ar e with hr | ⟨head, rest, hp, hr⟩
    · rw [hr]; exact ih
    · rw [hr]
      intro x hx
      simp only [List.mem_append, List.mem_singleton] at hx
      apply ih x
      rw [hp]
      simp only [List.mem_append, List.mem_cons]
      tauto
  | advance ar _ hw ih =>
    intro x hx
    have hx2 : x ∈ ar.state ++ ar.pending := hx
    have := ih x hx2
    show x.Version ≤ (ar.version + 1) % versionModulus
    rw [Nat.mod_eq_of_lt hw]
    omega

/-! ## The version counter -/

theorem apply_keeps_counter (ar : AggregateRoot) (e : Event) :
    (ar.Apply e).1.version = ar.version := by
  rcases apply_result ar e with hr | hr <;> rw [hr]

theorem reply_keeps_counter (ar : AggregateRoot) (batch : List Event) :
    (ar.Reply batch).1.version = ar.version := by
  rcases reply_result ar batch with hr | hr <;> rw [hr]

theorem sync_keeps_counter (ar : AggregateRoot) (e : Event) :
    (ar.Sync e).1.version = ar.version := by
  rcases sync_result ar e with hr | ⟨head, rest, _, hr⟩ <;> rw [hr]

theorem reply_success (ar : AggregateRoot) (batch : List Event)
    (h : (ar.Reply batch).2 = none) :
    (ar.Reply batch).1 = { ar with state := ar.state ++ batch } := by
  revert h
  unfold AggregateRoot.Reply
  by_cases hp : ar.pending.length > 0
  · simp [hp]
  · by_cases hu1 : Events.Unique batch = true
    · by_cases hu2 : Events.Unique (ar.state ++ batch) = true
      · simp only [hp, hu1, hu2, if_false, Bool.not_true, Bool.false_eq_true]
        cases AggregateRoot.replyCheck ar.getLastEvent batch with
        | none => simp
        | some err => simp
      · simp [hp, hu1, hu2]
    · simp [hp, hu1]

theorem hydrated_root (batch : List Event) (h : (AggregateRoot.zero.Reply batch).2 = none) :
    (AggregateRoot.zero.Reply batch).1 = { version := 0, state := batch, pending := [] } := by
  rw [reply_success AggregateRoot.zero batch h]
  simp [AggregateRoot.zero]

theorem constructed_stamped (agg : Nat) (heap : Heap) (issued : List Event)
    (h : ConstructedRun agg heap issued) :
    ReachableStamped (heap agg) ∧ ∀ e ∈ issued, e.Version ≤ (heap agg).version := by
  induction h with
  | fresh heap hz =>
    rw [hz]
    exact ⟨ReachableStamped.zero, by simp⟩
  | newEvent heap issued id event now _ hw ih =>
    have hroot : (NewEvent heap id agg event now).1 agg = (heap agg).AdvanceVersion.1 := by
      simp [NewEvent]
    have hver : (NewEvent heap id agg event now).2.Version = (heap agg).version + 1 := by
      simp only [NewEvent, AggregateRoot.AdvanceVersion]
      exact Nat.mod_eq_of_lt hw
    have hcnt : (heap agg).AdvanceVersion.1.version = (heap agg).version + 1 := by
      simp only [AggregateRoot.AdvanceVersion]
      exact Nat.mod_eq_of_lt hw
    rw [hroot]
    refine ⟨ReachableStamped.advance _ ih.1 hw, ?_⟩
    intro e he
    rw [hcnt]
    rcases List.mem_cons.mp he with he | he
    · rw [he, hver]
    · exact Nat.le_succ_of_le (ih.2 e he)
  | advance heap issued _ hw ih =>
    have hcnt : (heap agg).AdvanceVersion.1.version = (heap agg).version + 1 := by
      simp only [AggregateRoot.AdvanceVersion]
      exact Nat.mod_eq_of_lt hw
    rw [Function.update_same]
    refine ⟨ReachableStamped.advance _ ih.1 hw, ?_⟩
    intro e he
    rw [hcnt]
    exact Nat.le_succ_of_le (ih.2 e he)
  | apply heap issued e _ he ih =>
    rw [Function.update_same]
    refine ⟨ReachableStamped.apply _ e ih.1 (ih.2 e he), ?_⟩
    rw [apply_keeps_counter]
    exact ih.2
  | reply heap issued batch _ hb ih =>
    rw [Function.update_same]
    refine ⟨ReachableStamped.reply _ batch ih.1 (fun e he => ih.2 e (hb e he)), ?_⟩
    rw [reply_keeps_counter]
    exact ih.2
  | sync heap issued e _ ih =>
    rw [Function.update_same]
    refine ⟨ReachableStamped.sync _ e ih.1, ?_⟩
    rw [sync_keeps_counter]
    exact ih.2

/-- C15, as the code has it: `Apply`, `Reply` and `Sync` never change the version
counter; only `AdvanceVersion`, which `NewEvent` calls, does. So in every run on a fresh
aggregate in which the events handed to `Apply` and `Reply` were all made by `NewEvent`
on that aggregate, the counter not wrapping around, the counter returned by `Version` is
at least every version held in state or pending. After hydration of a fresh aggregate
through `Reply` the counter is still 0, whatever the batch. -/
theorem counter_bounds_constructed_versions (agg : Nat) (heap : Heap) (issued : List Event)
    (h : ConstructedRun agg heap issued) :
    (∀ e ∈ (heap agg).state, e.Version ≤ (heap agg).Version) ∧
    (∀ e ∈ (heap agg).pending, e.Version ≤ (heap agg).Version) ∧
    (∀ (ar : AggregateRoot) (e : Event) (batch : List Event),
      (ar.Apply e).1.Version = ar.Version ∧ (ar.Reply batch).1.Version = ar.Version ∧
      (ar.Sync e).1.Version = ar.Version) ∧
    (∀ batch : List Event,
      (AggregateRoot.zero.Reply batch).1.Version = 0 ∧
      ((AggregateRoot.zero.Reply batch).2 = none →
        (AggregateRoot.zero.Reply batch).1 =
          { version := 0, state := batch, pending := [] })) := by
  have hst := (constructed_stamped agg heap issued h).1
  refine ⟨?_, ?_, ?_, ?_⟩
  · exact fun e he => stamped_versions_le _ hst e (List.mem_append.mpr (Or.inl he))
  · exact fun e he => stamped_versions_le _ hst e (List.mem_append.mpr (Or.inr he))
  · intro ar e batch
    exact ⟨apply_keeps_counter ar e, reply_keeps_counter ar batch, sync_keeps_counter ar e⟩
  · intro batch
    exact ⟨reply_keeps_counter AggregateRoot.zero batch, hydrated_root batch⟩

theorem counter_bounds_constructed_versions_witness :
    ((Function.update (NewEvent (fun _ => AggregateRoot.zero) "1" 0
        { dynamicType := GoType.pointer (GoType.named "testIncCounter"), handle := 0 } 0).1 0
      ((((NewEvent (fun _ => AggregateRoot.zero) "1" 0
        { dynamicType := GoType.pointer (GoType.named "testIncCounter"), handle := 0 } 0).1 0).Apply
        (NewEvent (fun _ => AggregateRoot.zero) "1" 0
        { dynamicType := GoType.pointer (GoType.named "testIncCounter"), handle := 0 } 0).2).1)) 0).pending =
      [(NewEvent (fun _ => AggregateRoot.zero) "1" 0
        { dynamicType := GoType.pointer (GoType.named "testIncCounter"), handle := 0 } 0).2] ∧
    (∀ e ∈ ((Function.update (NewEvent (fun _ => AggregateRoot.zero) "1" 0
        { dynamicType := GoType.pointer (GoType.named "testIncCounter"), handle := 0 } 0).1 0
      ((((NewEvent (fun _ => AggregateRoot.zero) "1" 0
        { dynamicType := GoType.pointer (GoType.named "testIncCounter"), handle := 0 } 0).1 0).Apply
        (NewEvent (fun _ => AggregateRoot.zero) "1" 0
        { dynamicType := GoType.pointer (GoType.named "testIncCounter"), handle := 0 } 0).2).1)) 0).pending,
      e.Version ≤ ((Function.update (NewEvent (fun _ => AggregateRoot.zero) "1" 0
        { dynamicType := GoType.pointer (GoType.named "testIncCounter"), handle := 0 } 0).1 0
      ((((NewEvent (fun _ => AggregateRoot.zero) "1" 0
        { dynamicType := GoType.pointer (GoType.named "testIncCounter"), handle := 0 } 0).1 0).Apply
        (NewEvent (fun _ => AggregateRoot.zero) "1" 0
        { dynamicType := GoType.pointer (GoType.named "testIncCounter"), handle := 0 } 0).2).1)) 0).Version) :=
  ⟨by rfl,
   (counter_bounds_constructed_versions 0 _ _
      (ConstructedRun.apply _ _ _
        (ConstructedRun.newEvent (fun _ => AggregateRoot.zero) [] "1"
          { dynamicType := GoType.pointer (GoType.named "testIncCounter"), handle := 0 } 0
          (ConstructedRun.fresh _ rfl) (by decide))
        (List.mem_cons_self _ _))).2.1⟩

/-- C15 fails as stated: hydrating the zero-value root through `Reply` with one event of
version 1 succeeds and leaves the counter at 0, below the version held in state. -/
theorem counter_bounds_versions_counterexample :
    AggregateRoot.zero.Reply [eventWithVersion 1] =
      ({ version := 0, state := [eventWithVersion 1], pending := [] }, none) ∧
    (AggregateRoot.zero.Reply [eventWithVersion 1]).1.Version = 0 ∧
    ¬ (∀ e ∈ (AggregateRoot.zero.Reply [eventWithVersion 1]).1.state,
        e.Version ≤ (AggregateRoot.zero.Reply [eventWithVersion 1]).1.Version) := by
  refine ⟨by rfl, by rfl, ?_⟩
  intro h
  have := h (eventWithVersion 1) (by decide)
  revert this
  decide

theorem newEvents_spec (agg : Nat) (args : List NewEventArgs) (heap : Heap)
    (hwf : (heap agg).version < versionModulus) :
    (newEvents heap agg args).2.map (fun v => v.Version) =
      (List.range args.length).map (fun j => ((heap agg).version + 1 + j) % versionModulus) ∧
    (newEvents heap agg args).1 agg =
      { version := ((heap agg).version + args.length) % versionModulus,
        state := (heap agg).state, pending := (heap agg).pending } ∧
    (∀ other, other ≠ agg → (newEvents heap agg args).1 other = heap other) := by
  induction args generalizing heap with
  | nil => simp [newEvents, Nat.mod_eq_of_lt hwf]
  | cons a rest ih =>
    have hroot : (NewEvent heap a.id agg a.event a.now).1 agg =
        { version := ((heap agg).version + 1) % versionModulus,
          state := (heap agg).state, pending := (heap agg).pending } := by
      simp [NewEvent, AggregateRoot.AdvanceVersion]
    have hwf1 : ((NewEvent heap a.id agg a.event a.now).1 agg).version < versionModulus := by
      rw [hroot]
      exact Nat.mod_lt _ (by decide)
    obtain ⟨ih1, ih2, ih3⟩ := ih (NewEvent heap a.id agg a.event a.now).1 hwf1
    rw [hroot] at ih1 ih2
    simp only at ih1 ih2
    refine ⟨?_, ?_, ?_⟩
    · simp only [newEvents, List.map_cons, List.length_cons]
      rw [List.range_succ_eq_map, List.map_cons, List.map_map, ih1]
      congr 1
      apply List.map_congr_left
      intro j _
      simp only [Function.comp, Nat.succ_eq_add_one]
      rw [Nat.add_assoc (((heap agg).version + 1) % versionModulus), Nat.mod_add_mod]
      congr 1
      omega
    · simp only [newEvents, List.length_cons]
      rw [ih2, Nat.mod_add_mod]
      congr 2
      omega
    · intro other ho
      simp only [newEvents]
      rw [ih3 other ho]
      simp [NewEvent, Function.update, ho]

theorem reachable_counter (k : Nat) :
    Reachable { version := k % versionModulus, state := [], pending := [] } := by
  induction k with
  | zero => exact Reachable.zero
  | succ k ih =>
    have h := Reachable.advance _ ih
    simp only [AggregateRoot.AdvanceVersion, Nat.mod_add_mod] at h
    exact h

/-- C16, as the code has it: for an aggregate whose counter is c, `NewEvent` returns an
event whose version is c + 1 modulo 2 ^ 64 (the sum as `uint64` computes it) and leaves
the counter at that value; pending and state of that aggregate and the roots of all other
aggregates stay as they were. Hence the k-th event constructed on a fresh aggregate has
version k modulo 2 ^ 64, which is k as long as fewer than 2 ^ 64 events are constructed. -/
theorem newEvent_version (heap : Heap) (id : String) (agg : Nat)
    (event : MarshalUnmarshaler) (now : Nat) :
    (NewEvent heap id agg event now).2.Version = ((heap agg).version + 1) % 2 ^ 64 ∧
    ((NewEvent heap id agg event now).1 agg).Version = ((heap agg).version + 1) % 2 ^ 64 ∧
    ((NewEvent heap id agg event now).1 agg).pending = (heap agg).pending ∧
    ((NewEvent heap id agg event now).1 agg).state = (heap agg).state ∧
    (∀ other, other ≠ agg → (NewEvent heap id agg event now).1 other = heap other) ∧
    (∀ args : List NewEventArgs, heap agg = AggregateRoot.zero →
      (newEvents heap agg args).2.map (fun v => v.Version) =
        (List.range args.length).map (fun j => (j + 1) % 2 ^ 64) ∧
      (args.length < 2 ^ 64 →
        (newEvents heap agg args).2.map (fun v => v.Version) = List.range' 1 args.length)) := by
  refine ⟨rfl, ?_, ?_, ?_, ?_, ?_⟩
  · simp [NewEvent, AggregateRoot.AdvanceVersion, AggregateRoot.Version, versionModulus]
  · simp [NewEvent, AggregateRoot.AdvanceVersion]
  · simp [NewEvent, AggregateRoot.AdvanceVersion]
  · intro other ho
    simp [NewEvent, Function.update, ho]
  · intro args hz
    have hwf : (heap agg).version < versionModulus := by
      rw [hz]; decide
    have h1 := (newEvents_spec agg args heap hwf).1
    rw [hz] at h1
    have h2 : (newEvents heap agg args).2.map (fun v => v.Version) =
        (List.range args.length).map (fun j => (j + 1) % 2 ^ 64) := by
      rw [h1]
      apply List.map_congr_left
      intro j _
      simp only [AggregateRoot.zero, versionModulus]
      congr 1
      omega
    refine ⟨h2, ?_⟩
    intro hlen
    rw [h2, List.range'_eq_map_range]
    apply List.map_congr_left
    intro j hj
    have hj2 := List.mem_range.mp hj
    rw [Nat.mod_eq_of_lt (by omega)]
    omega

theorem newEvent_version_witness :
    (newEvents (fun _ => AggregateRoot.zero) 0
        [{ id := "1", event := { dynamicType := GoType.pointer (GoType.named "testIncCounter"),
                                 handle := 0 }, now := 0 },
         { id := "1", event := { dynamicType := GoType.pointer (GoType.named "testDecCounter"),
                                 handle := 1 }, now := 1 }]).2.map (fun v => v.Version) =
      List.range' 1 2 :=
  ((newEvent_version (fun _ => AggregateRoot.zero) "1" 0
      { dynamicType := GoType.named "testIncCounter", handle := 0 } 0).2.2.2.2.2
    [{ id := "1", event := { dynamicType := GoType.pointer (GoType.named "testIncCounter"),
                             handle := 0 }, now := 0 },
     { id := "1", event := { dynamicType := GoType.pointer (GoType.named "testDecCounter"),
                             handle := 1 }, now := 1 }] rfl).2 (by decide)

/-- C16 fails as stated: the counter 2 ^ 64 - 1 is reached by advancing the counter of the
zero-value root that many times, and `NewEvent` on an aggregate with that counter returns
an event of version 0 and leaves the counter at 0, not at 2 ^ 64. -/
theorem newEvent_version_counterexample :
    Reachable { version := 2 ^ 64 - 1, state := [], pending := [] } ∧
    (NewEvent (fun _ => { version := 2 ^ 64 - 1, state := [], pending := [] }) "1" 0
        { dynamicType := GoType.pointer (GoType.named "testIncCounter"), handle := 0 }
        0).2.Version = 0 ∧
    ((NewEvent (fun _ => { version := 2 ^ 64 - 1, state := [], pending := [] }) "1" 0
        { dynamicType := GoType.pointer (GoType.named "testIncCounter"), handle := 0 }
        0).1 0).Version = 0 ∧
    (NewEvent (fun _ => { version := 2 ^ 64 - 1, state := [], pending := [] }) "1" 0
        { dynamicType := GoType.pointer (GoType.named "testIncCounter"), handle := 0 }
        0).2.Version ≠ (2 ^ 64 - 1) + 1 := by
  refine ⟨?_, by rfl, by rfl, by decide⟩
  have h := reachable_counter (2 ^ 64 - 1)
  have hm : (2 ^ 64 - 1) % versionModulus = 2 ^ 64 - 1 := by decide
  rw [hm] at h
  exact h

/-- C17: when pending is empty, state is non-empty and holds no version twice, and the
batch has no version collision within itself or with state, a batch that contains an event
whose version is lower than the version of the last state event makes `Reply` fail with
`ErrVersionMismatch` (as a version-0 event does after version 1 has been replied). -/
theorem reply_lower_version (ar : AggregateRoot) (batch : List Event) (t : Event)
    (hp : ar.pending = [])
    (ht : ar.state.getLast? = some t)
    (hstate : (ar.state.map (fun v => v.Version)).Nodup)
    (hbatch : (batch.map (fun v => v.Version)).Nodup)
    (hdisj : ∀ s ∈ ar.state, ∀ v ∈ batch, s.Version ≠ v.Version)
    (hlow : ∃ v ∈ batch, v.Version < t.Version) :
    ar.Reply batch = (ar, some Error.ErrVersionMismatch) := by
  have hnd : ((ar.state ++ batch).map (fun v => v.Version)).Nodup := by
    rw [List.map_append]
    refine List.nodup_append.mpr ⟨hstate, hbatch, ?_⟩
    intro x hx1 hx2
    obtain ⟨a, ha, hax⟩ := List.mem_map.mp hx1
    obtain ⟨b, hb, hbx⟩ := List.mem_map.mp hx2
    exact hdisj a ha b hb (hax.trans hbx.symm)
  rw [reply_of_nodup ar batch hp hnd, ht]
  rcases replyCheck_result (some t) batch with hr | hr
  · obtain ⟨v, hv, hlt⟩ := hlow
    have := (replyCheck_none_iff t batch).mp hr v hv
    omega
  · rw [hr]

theorem reply_lower_version_witness :
    (({ version := 1, state := [eventWithVersion 1], pending := [] } : AggregateRoot).Reply
        [eventWithVersion 0]) =
      ({ version := 1, state := [eventWithVersion 1], pending := [] },
        some Error.ErrVersionMismatch) :=
  reply_lower_version { version := 1, state := [eventWithVersion 1], pending := [] }
    [eventWithVersion 0] (eventWithVersion 1) rfl rfl (by decide) (by decide) (by decide)
    ⟨eventWithVersion 0, by simp, by decide⟩

/-! ## Sequences of calls -/

theorem apply_accepts (ar : AggregateRoot) (e : Event)
    (hfresh : ∀ x ∈ ar.state ++ ar.pending, x.Version ≠ e.Version)
    (htail : ∀ t, tailEvent ar = some t → (t.Version + 1) % versionModulus = e.Version) :
    ar.Apply e = ({ ar with pending := ar.pending ++ [e] }, none) := by
  have hc : ¬ slices.Contains (Events.versions ar.state ++ Events.versions ar.pending)
      e.Version = true := by
    rw [contains_versions_iff]
    rintro ⟨x, hx, hv⟩
    exact hfresh x hx hv
  unfold AggregateRoot.Apply
  simp only [hc, if_false, Bool.false_eq_true]
  rw [getLastEvent_eq_tailEvent]
  cases ht : tailEvent ar with
  | none => rfl
  | some t => simp [htail t ht]

theorem tailEvent_concat (ar : AggregateRoot) (e : Event) :
    tailEvent { ar with pending := ar.pending ++ [e] } = some e := by
  simp [tailEvent]

theorem callInOrder_apply (L : List Event) (r : AggregateRoot)
    (hnd : ((r.state ++ r.pending ++ L).map (fun v => v.Version)).Nodup)
    (hchain : List.Chain' (fun a b : Event => b.Version = (a.Version + 1) % versionModulus)
      ((tailEvent r).toList ++ L)) :
    callInOrder AggregateRoot.Apply r L =
      ({ r with pending := r.pending ++ L }, List.replicate L.length none) := by
  induction L generalizing r with
  | nil => simp [callInOrder]
  | cons e rest ih =>
    have hA : r.Apply e = ({ r with pending := r.pending ++ [e] }, none) := by
      apply apply_accepts
      · intro x hx hv
        rw [List.map_append] at hnd
        have hd := (List.nodup_append.mp hnd).2.2
        exact hd (List.mem_map.mpr ⟨x, hx, rfl⟩)
          (List.mem_map.mpr ⟨e, List.mem_cons_self e rest, hv.symm⟩)
      · intro t ht
        rw [ht] at hchain
        simp only [Option.toList, List.singleton_append] at hchain
        exact (List.chain'_cons.mp hchain).1.symm
    have hnd1 : (({ r with pending := r.pending ++ [e] } : AggregateRoot).state ++
        ({ r with pending := r.pending ++ [e] } : AggregateRoot).pending ++ rest).map
        (fun v => v.Version) |>.Nodup := by
      simpa [List.append_assoc] using hnd
    have hchain1 : List.Chain'
        (fun a b : Event => b.Version = (a.Version + 1) % versionModulus)
        ((tailEvent { r with pending := r.pending ++ [e] }).toList ++ rest) := by
      rw [tailEvent_concat]
      exact List.Chain'.right_of_append hchain
    have h := ih _ hnd1 hchain1
    simp only [callInOrder, hA, h]
    simp [List.replicate_succ]

theorem chain_range_succ (n s : Nat) (h : s + n < versionModulus) :
    List.Chain (fun a b : Nat => b = (a + 1) % versionModulus) s (List.range' (s + 1) n) := by
  induction n generalizing s with
  | zero => exact List.Chain.nil
  | succ n ih =>
    rw [List.range'_succ]
    refine List.Chain.cons ?_ (ih (s + 1) (by omega))
    rw [Nat.mod_eq_of_lt (by omega)]

theorem chain_range_from_one (n : Nat) (h : n < versionModulus) :
    List.Chain' (fun a b : Nat => b = (a + 1) % versionModulus) (List.range' 1 n) := by
  cases n with
  | zero => simp
  | succ n =>
    rw [List.range'_succ]
    exact chain_range_succ n 1 (by omega)

theorem newEvents_fresh (heap : Heap) (agg : Nat) (args : List NewEventArgs)
    (hz : heap agg = AggregateRoot.zero) (hlen : args.length < versionModulus) :
    (newEvents heap agg args).2.map (fun v => v.Version) = List.range' 1 args.length ∧
    (newEvents heap agg args).1 agg =
      { version := args.length, state := [], pending := [] } := by
  have hwf : (heap agg).version < versionModulus := by
    rw [hz]; decide
  obtain ⟨h1, h2, _⟩ := newEvents_spec agg args heap hwf
  rw [hz] at h1 h2
  constructor
  · rw [h1, List.range'_eq_map_range]
    apply List.map_congr_left
    intro j hj
    have hj2 := List.mem_range.mp hj
    simp only [AggregateRoot.zero]
    rw [Nat.mod_eq_of_lt (by omega)]
  · rw [h2]
    simp only [AggregateRoot.zero, Nat.zero_add]
    rw [Nat.mod_eq_of_lt hlen]

theorem sync_no_pending (ar : AggregateRoot) (e : Event) (hp : ar.pending = []) :
    ar.Sync e = (ar, some Error.ErrSyncNoEvents) := by
  unfold AggregateRoot.Sync
  rw [hp]

theorem callInOrder_sync (L : List Event) (r : AggregateRoot) (rest : List Event)
    (hp : r.pending = L ++ rest) :
    callInOrder AggregateRoot.Sync r L =
      ({ version := r.version, state := r.state ++ L, pending := rest },
        List.replicate L.length none) := by
  induction L generalizing r with
  | nil =>
    rcases r with ⟨ver, st, pe⟩
    simp only [List.nil_append] at hp
    subst hp
    simp [callInOrder]
  | cons e more ih =>
    have hS : r.Sync e =
        ({ version := r.version, state := r.state ++ [e], pending := more ++ rest }, none) := by
      unfold AggregateRoot.Sync
      rw [hp]
      simp
    have h := ih { version := r.version, state := r.state ++ [e], pending := more ++ rest } rfl
    simp only [callInOrder, hS, h]
    simp [List.replicate_succ]

/-- C18: on a fresh aggregate, after n events (fewer than 2 ^ 64; a Go slice holds fewer
than 2 ^ 63) were constructed with `NewEvent`, the calls `Apply(e1)`, ..., `Apply(ei)` in
construction order all return no error, for every i up to n, and leave pending equal to
the events applied so far in application order, state still empty. -/
theorem apply_constructed_events (heap : Heap) (agg : Nat) (args : List NewEventArgs)
    (hz : heap agg = AggregateRoot.zero) (hlen : args.length < 2 ^ 64)
    (i : Nat) (hi : i ≤ args.length) :
    callInOrder AggregateRoot.Apply ((newEvents heap agg args).1 agg)
        ((newEvents heap agg args).2.take i) =
      ({ version := args.length, state := [],
         pending := (newEvents heap agg args).2.take i }, List.replicate i none) := by
  obtain ⟨hv, hroot⟩ := newEvents_fresh heap agg args hz hlen
  have hlen2 : (newEvents heap agg args).2.length = args.length := by
    have := congrArg List.length hv
    simpa using this
  have hnd : ((newEvents heap agg args).2.map (fun v => v.Version)).Nodup := by
    rw [hv]; exact List.nodup_range' 1 args.length
  have hchain : List.Chain'
      (fun a b : Event => b.Version = (a.Version + 1) % versionModulus)
      (newEvents heap agg args).2 := by
    have := chain_range_from_one args.length hlen
    rw [← hv] at this
    exact (List.chain'_map (fun v : Event => v.Version)).mp this
  have h := callInOrder_apply ((newEvents heap agg args).2.take i)
    ((newEvents heap agg args).1 agg)
    (by
      rw [hroot]
      simp only [List.nil_append]
      exact List.Nodup.sublist ((List.take_sublist i _).map _) hnd)
    (by
      rw [hroot]
      simp only [tailEvent, List.getLast?_nil, Option.toList, List.nil_append]
      exact hchain.take i)
  rw [h, hroot]
  simp [hlen2, hi]

theorem apply_constructed_events_witness :
    callInOrder AggregateRoot.Apply
        ((newEvents (fun _ => AggregateRoot.zero) 0
          [{ id := "1", event := { dynamicType := GoType.pointer (GoType.named "testIncCounter"),
                                   handle := 0 }, now := 0 },
           { id := "1", event := { dynamicType := GoType.pointer (GoType.named "testDecCounter"),
                                   handle := 1 }, now := 1 }]).1 0)
        ((newEvents (fun _ => AggregateRoot.zero) 0
          [{ id := "1", event := { dynamicType := GoType.pointer (GoType.named "testIncCounter"),
                                   handle := 0 }, now := 0 },
           { id := "1", event := { dynamicType := GoType.pointer (GoType.named "testDecCounter"),
                                   handle := 1 }, now := 1 }]).2.take 2) =
      ({ version := 2, state := [],
         pending := (newEvents (fun _ => AggregateRoot.zero) 0
          [{ id := "1", event := { dynamicType := GoType.pointer (GoType.named "testIncCounter"),
                                   handle := 0 }, now := 0 },
           { id := "1", event := { dynamicType := GoType.pointer (GoType.named "testDecCounter"),
                                   handle := 1 }, now := 1 }]).2.take 2 },
        List.replicate 2 none) :=
  apply_constructed_events (fun _ => AggregateRoot.zero) 0
    [{ id := "1", event := { dynamicType := GoType.pointer (GoType.named "testIncCounter"),
                             handle := 0 }, now := 0 },
     { id := "1", event := { dynamicType := GoType.pointer (GoType.named "testDecCounter"),
                             handle := 1 }, now := 1 }] rfl (by decide) 2 (by decide)

/-- C19: for a root whose pending is e1, ..., en and whose state is s, the calls
`Sync(e1)`, ..., `Sync(ei)` in that order all return no error, for every i up to n, and
leave pending equal to e(i+1), ..., en and state equal to s followed by e1, ..., ei; for
i = n pending is empty and state is s followed by all n events in their order. -/
theorem sync_all_in_order (ar : AggregateRoot) (i : Nat) (hi : i ≤ ar.pending.length) :
    callInOrder AggregateRoot.Sync ar (ar.pending.take i) =
      ({ version := ar.version, state := ar.state ++ ar.pending.take i,
         pending := ar.pending.drop i }, List.replicate i none) ∧
    callInOrder AggregateRoot.Sync ar ar.pending =
      ({ version := ar.version, state := ar.state ++ ar.pending, pending := [] },
        List.replicate ar.pending.length none) := by
  constructor
  · have h := callInOrder_sync (ar.pending.take i) ar (ar.pending.drop i)
      (List.take_append_drop i ar.pending).symm
    rw [h]
    simp [hi]
  · exact callInOrder_sync ar.pending ar [] (by simp)

theorem sync_all_in_order_witness :
    callInOrder AggregateRoot.Sync
        { version := 3, state := [eventWithVersion 1],
          pending := [eventWithVersion 2, eventWithVersion 3, eventWithVersion 4] }
        ([eventWithVersion 2, eventWithVersion 3, eventWithVersion 4].take 2) =
      ({ version := 3,
         state := [eventWithVersion 1] ++
           [eventWithVersion 2, eventWithVersion 3, eventWithVersion 4].take 2,
         pending := [eventWithVersion 2, eventWithVersion 3, eventWithVersion 4].drop 2 },
        List.replicate 2 none) :=
  (sync_all_in_order
    { version := 3, state := [eventWithVersion 1],
      pending := [eventWithVersion 2, eventWithVersion 3, eventWithVersion 4] } 2
    (by decide)).1

/-- C20: in a state reachable from the zero-value root, after a successful `Sync(e)` the
list returned by `Events` holds no event with the version of e, and state holds exactly
one event with that version. -/
theorem sync_removes_from_events (ar : AggregateRoot) (e : Event) (hr : Reachable ar)
    (hok : (ar.Sync e).2 = none) :
    (∀ x ∈ (ar.Sync e).1.Events, x.Version ≠ e.Version) ∧
    (ar.Sync e).1.state.countP (fun x => x.Version == e.Version) = 1 := by
  have hnd := reachable_heldVersions_nodup ar hr
  unfold heldVersions at hnd
  cases hp : ar.pending with
  | nil =>
    rw [sync_no_pending ar e hp] at hok
    cases hok
  | cons head rest =>
    by_cases hv : head.Version = e.Version
    · have hS : ar.Sync e =
          ({ version := ar.version, state := ar.state ++ [head], pending := rest }, none) := by
        unfold AggregateRoot.Sync
        rw [hp]
        simp [hv]
      rw [hp, List.map_append, List.map_cons] at hnd
      obtain ⟨_, hnd2, hdisj⟩ := List.nodup_append.mp hnd
      rw [List.nodup_cons] at hnd2
      rw [hS]
      simp only [AggregateRoot.Events]
      constructor
      · intro x hx hxv
        exact hnd2.1 (List.mem_map.mpr ⟨x, hx, hxv.trans hv.symm⟩)
      · rw [List.countP_append]
        have h0 : List.countP (fun x => x.Version == e.Version) ar.state = 0 := by
          rw [List.countP_eq_zero]
          intro x hx hxv
          simp only [beq_iff_eq] at hxv
          exact hdisj (List.mem_map.mpr ⟨x, hx, rfl⟩)
            (by rw [hxv, ← hv]; exact List.mem_cons_self _ _)
        rw [h0]
        simp [hv]
    · have hS : ar.Sync e = (ar, some Error.ErrVersionMismatch) := by
        unfold AggregateRoot.Sync
        rw [hp]
        simp [hv]
      rw [hS] at hok
      cases hok

theorem sync_removes_from_events_witness :
    (∀ x ∈ (({ version := 0, state := [],
               pending := [eventWithVersion 1, eventWithVersion 2] } : AggregateRoot).Sync
              (eventWithVersion 1)).1.Events, x.Version ≠ (eventWithVersion 1).Version) ∧
    (({ version := 0, state := [],
        pending := [eventWithVersion 1, eventWithVersion 2] } : AggregateRoot).Sync
        (eventWithVersion 1)).1.state.countP
      (fun x => x.Version == (eventWithVersion 1).Version) = 1 :=
  sync_removes_from_events
    { version := 0, state := [], pending := [eventWithVersion 1, eventWithVersion 2] }
    (eventWithVersion 1)
    (Reachable.apply _ (eventWithVersion 2)
      (Reachable.apply _ (eventWithVersion 1) Reachable.zero (by decide)) (by decide))
    rfl

/-! ## Uniqueness of events -/

theorem nodup_map_iff_get {α β : Type} (f : α → β) (l : List α) :
    (l.map f).Nodup ↔ ∀ i j : Fin l.length, i ≠ j → f (l.get i) ≠ f (l.get j) := by
  constructor
  · intro hnd i j hij hv
    have heq := List.inj_on_of_nodup_map hnd (List.get_mem l i.1 i.2) (List.get_mem l j.1 j.2) hv
    exact hij ((List.Nodup.get_inj_iff (List.Nodup.of_map _ hnd)).mp heq)
  · intro h
    induction l with
    | nil => simp
    | cons x xs ih =>
      rw [List.map_cons, List.nodup_cons]
      constructor
      · intro hx
        obtain ⟨y, hy, hxy⟩ := List.mem_map.mp hx
        obtain ⟨k, hk⟩ := List.get_of_mem hy
        have := h ⟨0, by simp⟩ ⟨k.1 + 1, by simp⟩ (by simp [Fin.ext_iff])
        apply this
        simp only [List.get_eq_getElem, List.getElem_cons_zero, List.getElem_cons_succ]
        rw [List.get_eq_getElem] at hk
        rw [hk, hxy]
      · apply ih
        intro i j hij
        have := h ⟨i.1 + 1, by simp⟩ ⟨j.1 + 1, by simp⟩
          (by simp only [ne_eq, Fin.mk.injEq, add_left_inj]; exact fun hc => hij (Fin.ext hc))
        simpa using this

/-- C21: for every list of events, the empty one included, `Events.Unique` returns true
exactly when no two members at different places have the same version; only the versions
count: two lists with the same versions in the same order get the same answer, whatever
their other fields. -/
theorem events_unique_iff (e : Events) :
    (Events.Unique e = true ↔
      ∀ i j : Fin e.length, i ≠ j → (e.get i).Version ≠ (e.get j).Version) ∧
    (∀ e2 : Events, e2.map (fun v => v.Version) = e.map (fun v => v.Version) →
      Events.Unique e2 = Events.Unique e) := by
  constructor
  · rw [unique_iff_nodup]
    exact nodup_map_iff_get (fun v => v.Version) e
  · intro e2 h
    unfold Events.Unique
    rw [versions_eq_map, versions_eq_map, h]

theorem events_unique_iff_witness :
    Events.Unique [{ eventWithVersion 1 with AggregateID := "a" },
                   { eventWithVersion 1 with AggregateID := "b" }] =
      Events.Unique [eventWithVersion 1, eventWithVersion 1] :=
  (events_unique_iff [eventWithVersion 1, eventWithVersion 1]).2
    [{ eventWithVersion 1 with AggregateID := "a" },
     { eventWithVersion 1 with AggregateID := "b" }] rfl

/-! ## Roots driven by Apply and Sync alone -/

theorem held_getLast (ar : AggregateRoot) :
    (ar.state ++ ar.pending).getLast? = tailEvent ar := by
  unfold tailEvent
  rw [List.getLast?_append]
  cases ar.pending.getLast? with
  | some t => simp
  | none => simp

theorem sync_keeps_held (ar : AggregateRoot) (e : Event) :
    (ar.Sync e).1.state ++ (ar.Sync e).1.pending = ar.state ++ ar.pending := by
  rcases sync_result ar e with hr | ⟨head, rest, hp, hr⟩
  · rw [hr]
  · rw [hr, hp]
    simp

theorem apply_heldChain (ar : AggregateRoot) (e : Event)
    (h : List.Chain' (fun a b : Event => b.Version = (a.Version + 1) % versionModulus)
      (ar.state ++ ar.pending)) :
    List.Chain' (fun a b : Event => b.Version = (a.Version + 1) % versionModulus)
      ((ar.Apply e).1.state ++ (ar.Apply e).1.pending) := by
  unfold AggregateRoot.Apply
  by_cases hc : slices.Contains (Events.versions ar.state ++ Events.versions ar.pending)
      e.Version = true
  · simpa [hc] using h
  · simp only [hc, if_false, Bool.false_eq_true]
    cases hl : ar.getLastEvent with
    | none =>
      rw [getLastEvent_eq_tailEvent, ← held_getLast] at hl
      have hnil := List.getLast?_eq_none_iff.mp hl
      have hs : ar.state = [] := (List.append_eq_nil.mp hnil).1
      have hp : ar.pending = [] := (List.append_eq_nil.mp hnil).2
      simp [hs, hp]
    | some l =>
      by_cases hm : (l.Version + 1) % versionModulus = e.Version
      · simp only [hm, ne_eq, not_true_eq_false, if_false]
        rw [← List.append_assoc]
        refine List.Chain'.append h (List.chain'_singleton e) ?_
        intro x hx y hy
        rw [held_getLast, ← getLastEvent_eq_tailEvent, hl] at hx
        simp only [Option.mem_def, Option.some.injEq] at hx
        simp only [List.head?_cons, Option.mem_def, Option.some.injEq] at hy
        subst hx hy
        exact hm.symm
      · simpa [hm] using h

theorem applySync_heldChain (ar : AggregateRoot) (h : ReachableApplySync ar) :
    List.Chain' (fun a b : Event => b.Version = (a.Version + 1) % versionModulus)
      (ar.state ++ ar.pending) := by
  induction h with
  | zero => simp [AggregateRoot.zero]
  | apply ar e _ _ ih => exact apply_heldChain ar e ih
  | sync ar e _ _ ih => rw [sync_keeps_held]; exact ih

/-- C25: in every state reachable from the zero-value root by `Apply` and `Sync` calls
alone, successful or failed, the versions of state followed by those of pending are
consecutive: each is the one before it plus one modulo 2 ^ 64. Every successful `Sync`
leaves state followed by pending the same sequence. The first version can be any
64-bit value: a single event of any version is accepted by the zero-value root. -/
theorem applySync_versions_consecutive (ar : AggregateRoot) (h : ReachableApplySync ar) :
    List.Chain' (fun a b : Nat => b = (a + 1) % 2 ^ 64)
      ((ar.state ++ ar.pending).map (fun v => v.Version)) ∧
    (∀ e : Event, (ar.Sync e).2 = none →
      (ar.Sync e).1.state ++ (ar.Sync e).1.pending = ar.state ++ ar.pending) ∧
    (∀ v : Nat, v < 2 ^ 64 →
      ReachableApplySync { version := 0, state := [], pending := [eventWithVersion v] }) := by
  refine ⟨?_, ?_, ?_⟩
  · exact (List.chain'_map (fun v : Event => v.Version)).mpr (applySync_heldChain ar h)
  · intro e _
    exact sync_keeps_held ar e
  · intro v hv
    have hstep := ReachableApplySync.apply AggregateRoot.zero (eventWithVersion v)
      ReachableApplySync.zero hv
    have heq : (AggregateRoot.zero.Apply (eventWithVersion v)).1 =
        { version := 0, state := [], pending := [eventWithVersion v] } := by
      simp [AggregateRoot.Apply, AggregateRoot.zero, AggregateRoot.getLastEvent,
        slices.Contains, Events.versions]
    rw [heq] at hstep
    exact hstep

theorem applySync_versions_consecutive_witness :
    List.Chain' (fun a b : Nat => b = (a + 1) % 2 ^ 64)
      (([eventWithVersion 7] ++ [eventWithVersion 8]).map (fun v => v.Version)) :=
  (applySync_versions_consecutive
    { version := 0, state := [eventWithVersion 7], pending := [eventWithVersion 8] }
    (ReachableApplySync.sync _ (eventWithVersion 7)
      (ReachableApplySync.apply _ (eventWithVersion 8)
        (ReachableApplySync.apply _ (eventWithVersion 7) ReachableApplySync.zero (by decide))
        (by decide))
      (by decide))).1

/-! ## Registry -/

theorem parseTypeName_of_rule (t : GoType) (name : String) (h : typeNameRule t = some name) :
    parseTypeName t = name := by
  cases t with
  | named n =>
    simp only [typeNameRule, Option.some.injEq] at h
    simp [parseTypeName, GoType.Name, h]
  | pointer elem =>
    cases elem with
    | named n =>
      simp only [typeNameRule, Option.some.injEq] at h
      simp [parseTypeName, GoType.Name, h]
    | pointer _ => simp [typeNameRule] at h

theorem register_returns (r : Registry) (agg : Aggregate) (payload : MarshalUnmarshaler)
    (hl : r.locked = false) :
    (RegisterAggregateEvent r (some agg) (some (fun _ => some payload))).1.locked = false ∧
    (RegisterAggregateEvent r (some agg) (some (fun _ => some payload))).2 =
      Outcome.returned () := by
  simp [RegisterAggregateEvent, hl]

theorem get_after_register (r : Registry) (agg : Aggregate) (payload : MarshalUnmarshaler)
    (aggregate : Aggregate) (event : String) (hl : r.locked = false) :
    GetAggregateEvent (RegisterAggregateEvent r (some agg) (some (fun _ => some payload))).1
        (some aggregate) event =
      if ParseAggregateName agg.dynamicType = ParseAggregateName aggregate.dynamicType ∧
          ParseEventName payload.dynamicType = event then
        Outcome.returned (Except.ok (some payload))
      else GetAggregateEvent r (some aggregate) event := by
  unfold GetAggregateEvent RegisterAggregateEvent
  simp only [hl, Bool.false_eq_true, if_false]
  generalize ParseAggregateName agg.dynamicType = a
  generalize ParseAggregateName aggregate.dynamicType = b
  generalize ParseEventName payload.dynamicType = n
  by_cases ha : a = b
  · subst ha
    by_cases he : n = event
    · subst he
      simp [Function.update_same]
    · have he2 : event ≠ n := fun h => he h.symm
      simp [he, Function.update_same, Function.update_noteq he2]
  · have ha2 : b ≠ a := fun h => ha h.symm
    simp [ha, Function.update_noteq ha2]

theorem key_matches_rule (p : Aggregate × MarshalUnmarshaler) (aggregate : Aggregate)
    (aggName event : String)
    (hp : (typeNameRule p.1.dynamicType).isSome = true ∧
      (typeNameRule p.2.dynamicType).isSome = true)
    (hagg : typeNameRule aggregate.dynamicType = some aggName) :
    (ParseAggregateName p.1.dynamicType = ParseAggregateName aggregate.dynamicType ∧
      ParseEventName p.2.dynamicType = event) ↔ registeredAs aggName event p = true := by
  obtain ⟨a, ha⟩ := Option.isSome_iff_exists.mp hp.1
  obtain ⟨n, hn⟩ := Option.isSome_iff_exists.mp hp.2
  unfold ParseAggregateName ParseEventName registeredAs
  rw [parseTypeName_of_rule _ _ ha, parseTypeName_of_rule _ _ hn,
    parseTypeName_of_rule _ _ hagg, ha, hn]
  simp

theorem get_after_registerAll (regs : List (Aggregate × MarshalUnmarshaler)) (r : Registry)
    (aggregate : Aggregate) (aggName event : String) (hl : r.locked = false)
    (hregs : ∀ p ∈ regs, (typeNameRule p.1.dynamicType).isSome = true ∧
      (typeNameRule p.2.dynamicType).isSome = true)
    (hagg : typeNameRule aggregate.dynamicType = some aggName) :
    (registerAll r regs).locked = false ∧
    GetAggregateEvent (registerAll r regs) (some aggregate) event =
      match regs.reverse.find? (registeredAs aggName event) with
      | some p => Outcome.returned (Except.ok (some p.2))
      | none => GetAggregateEvent r (some aggregate) event := by
  induction regs using List.reverseRecOn with
  | nil => simp [registerAll, hl]
  | append_singleton l a ih =>
    have hl2 : ∀ p ∈ l, (typeNameRule p.1.dynamicType).isSome = true ∧
        (typeNameRule p.2.dynamicType).isSome = true :=
      fun p hp => hregs p (List.mem_append.mpr (Or.inl hp))
    have ha := hregs a (List.mem_append.mpr (Or.inr (List.mem_singleton.mpr rfl)))
    obtain ⟨ihl, ihg⟩ := ih hl2
    have hstep : registerAll r (l ++ [a]) =
        (RegisterAggregateEvent (registerAll r l) (some a.1) (some (fun _ => some a.2))).1 := by
      simp [registerAll, List.foldl_append]
    rw [hstep]
    refine ⟨(register_returns _ a.1 a.2 ihl).1, ?_⟩
    rw [get_after_register _ _ _ _ _ ihl, List.reverse_append, List.reverse_singleton,
      List.singleton_append, List.find?_cons]
    by_cases hm : registeredAs aggName event a = true
    · have hk := (key_matches_rule a aggregate aggName event ha hagg).mpr hm
      simp [hm, hk]
    · have hk : ¬ (ParseAggregateName a.1.dynamicType = ParseAggregateName aggregate.dynamicType ∧
          ParseEventName a.2.dynamicType = event) :=
        fun h => hm ((key_matches_rule a aggregate aggName event ha hagg).mp h)
      have hm2 : registeredAs aggName event a = false := by simpa using hm
      simp only [hk, if_false, hm2]
      exact ihg

/-- C22, as the code has it: after any sequence of `RegisterAggregateEvent` calls with
aggregates, constructors and payloads other than nil, made on the registry as `init`
leaves it, every call has returned and released the mutex, and `GetAggregateEvent` for an
aggregate other than nil returns without error the payload of the constructor registered
last under the type name of the aggregate and the event name (the names being those of
the spec's rule: the bare name of the type, or of the type pointed to), and fails with
the "not found" error when nothing was registered under that pair, an aggregate type
without any registration included; a registration under another pair of names leaves the
result as it was. -/
theorem registry_lookup (regs : List (Aggregate × MarshalUnmarshaler))
    (aggregate : Aggregate) (aggName event : String)
    (hregs : ∀ p ∈ regs, (typeNameRule p.1.dynamicType).isSome = true ∧
      (typeNameRule p.2.dynamicType).isSome = true)
    (hagg : typeNameRule aggregate.dynamicType = some aggName) :
    (registerAll Registry.init regs).locked = false ∧
    GetAggregateEvent (registerAll Registry.init regs) (some aggregate) event =
      Outcome.returned
        (match regs.reverse.find? (registeredAs aggName event) with
         | some p => Except.ok (some p.2)
         | none => Except.error RegistryError.NotFound) ∧
    (∀ (r : Registry) (agg : Aggregate) (payload : MarshalUnmarshaler),
      r.locked = false →
      (typeNameRule agg.dynamicType).isSome = true →
      (typeNameRule payload.dynamicType).isSome = true →
      (typeNameRule agg.dynamicType ≠ some aggName ∨
        typeNameRule payload.dynamicType ≠ some event) →
      GetAggregateEvent
          (RegisterAggregateEvent r (some agg) (some (fun _ => some payload))).1
          (some aggregate) event =
        GetAggregateEvent r (some aggregate) event) := by
  obtain ⟨h1, h2⟩ := get_after_registerAll regs Registry.init aggregate aggName event rfl
    hregs hagg
  refine ⟨h1, ?_, ?_⟩
  · rw [h2]
    cases regs.reverse.find? (registeredAs aggName event) with
    | some p => rfl
    | none => simp [GetAggregateEvent, Registry.init]
  · intro r agg payload hl hca hcp hne
    rw [get_after_register _ _ _ _ _ hl]
    have hk : ¬ (ParseAggregateName agg.dynamicType = ParseAggregateName aggregate.dynamicType ∧
        ParseEventName payload.dynamicType = event) := by
      intro h
      have hm := (key_matches_rule (agg, payload) aggregate aggName event ⟨hca, hcp⟩ hagg).mp h
      simp only [registeredAs, Bool.and_eq_true, beq_iff_eq] at hm
      rcases hne with hne | hne
      · exact hne hm.1
      · exact hne hm.2
    simp [hk]

theorem registry_lookup_witness :
    GetAggregateEvent
        (registerAll Registry.init
          [({ dynamicType := GoType.pointer (GoType.named "testAggregate"), address := 0 },
            { dynamicType := GoType.pointer (GoType.named "testIncCounter"), handle := 0 }),
           ({ dynamicType := GoType.pointer (GoType.named "testAggregate"), address := 0 },
            { dynamicType := GoType.pointer (GoType.named "testDecCounter"), handle := 1 }),
           ({ dynamicType := GoType.named "testAggregate", address := 2 },
            { dynamicType := GoType.pointer (GoType.named "testIncCounter"), handle := 2 })])
        (some { dynamicType := GoType.pointer (GoType.named "testAggregate"), address := 1 })
        "testIncCounter" =
      Outcome.returned (Except.ok (some
        { dynamicType := GoType.pointer (GoType.named "testIncCounter"), handle := 2 })) :=
  (registry_lookup
    [({ dynamicType := GoType.pointer (GoType.named "testAggregate"), address := 0 },
      { dynamicType := GoType.pointer (GoType.named "testIncCounter"), handle := 0 }),
     ({ dynamicType := GoType.pointer (GoType.named "testAggregate"), address := 0 },
      { dynamicType := GoType.pointer (GoType.named "testDecCounter"), handle := 1 }),
     ({ dynamicType := GoType.named "testAggregate", address := 2 },
      { dynamicType := GoType.pointer (GoType.named "testIncCounter"), handle := 2 })]
    { dynamicType := GoType.pointer (GoType.named "testAggregate"), address := 1 }
    "testAggregate" "testIncCounter" (by decide) rfl).2.1

/-- C22 fails as stated: a registration with a nil aggregate panics inside
`parseTypeName` while the mutex is held, and every later `GetAggregateEvent` waits for it
for ever, returning neither a payload nor "not found"; the same happens when the
constructor returns a nil payload. A query with a nil aggregate panics. -/
theorem registry_lookup_counterexample :
    (RegisterAggregateEvent Registry.init none
      (some (fun _ => some
        { dynamicType := GoType.pointer (GoType.named "testIncCounter"), handle := 0 }))).2 =
      Outcome.panicked ∧
    GetAggregateEvent
        (RegisterAggregateEvent Registry.init none
          (some (fun _ => some
            { dynamicType := GoType.pointer (GoType.named "testIncCounter"),
              handle := 0 }))).1
        (some { dynamicType := GoType.pointer (GoType.named "testAggregate"), address := 1 })
        "testIncCounter" = Outcome.blocked ∧
    GetAggregateEvent
        (RegisterAggregateEvent Registry.init
          (some { dynamicType := GoType.pointer (GoType.named "testAggregate"), address := 1 })
          (some (fun _ => none))).1
        (some { dynamicType := GoType.pointer (GoType.named "testAggregate"), address := 1 })
        "testIncCounter" = Outcome.blocked ∧
    GetAggregateEvent Registry.init none "testIncCounter" = Outcome.panicked :=
  ⟨rfl, rfl, rfl, rfl⟩

end es

namespace esdb

/-! ## Save -/

theorem saveCall_cons (stream : List Event → String) (first : Event) (rest : List Event) :
    Client.saveCall stream (first :: rest) =
      Except.ok (some
        { streamID := stream (first :: rest),
          options :=
            if first.Version > 1 then
              { ExpectedRevision := some (eventstore.ExpectedRevision.StreamRevision
                  ((first.Version + 2 ^ 64 - 2) % 2 ^ 64)) }
            else if first.Version = 1 then
              { ExpectedRevision := some eventstore.ExpectedRevision.NoStream }
            else { ExpectedRevision := none },
          data := (first :: rest).map (fun v =>
            ({ ContentType := eventstore.ContentType.JsonContentType, EventType := v.TypeName,
               Data := v.Data, Metadata := v.Metadata } : eventstore.EventData)) }) := by
  simp [Client.saveCall, parseFirstEventVersion]

/-- C23, as the code has it: for a non-empty batch, `Save` makes one call of
`AppendToStream`, and the expected revision sent with it is decided by the version m of
the first event of the batch (the lowest one when the batch is in ascending order): "no
stream" when m = 1, the exact revision m - 2 when m > 1, and no expectation at all when
m = 0. -/
theorem save_expected_revision (stream : List Event → String) (first : Event)
    (rest : List Event) :
    ∃ call : AppendCall,
      Client.saveCall stream (first :: rest) = Except.ok (some call) ∧
      (∀ (store : eventstore.Store) (now : Nat),
        (Client.Save stream store (first :: rest) now).1 =
          (eventstore.AppendToStream store call.streamID call.options call.data now).1) ∧
      (first.Version = 1 →
        call.options.ExpectedRevision = some eventstore.ExpectedRevision.NoStream) ∧
      (1 < first.Version → first.Version < 2 ^ 64 →
        call.options.ExpectedRevision =
          some (eventstore.ExpectedRevision.StreamRevision (first.Version - 2))) ∧
      (first.Version = 0 → call.options.ExpectedRevision = none) := by
  refine ⟨_, saveCall_cons stream first rest, ?_, ?_, ?_, ?_⟩
  · intro store now
    unfold Client.Save
    rw [saveCall_cons]
    simp only
    split <;> simp_all
  · intro h1
    simp [h1]
  · intro h1 h2
    have hgt : first.Version > 1 := h1
    have hsub : (first.Version + 2 ^ 64 - 2) % 2 ^ 64 = first.Version - 2 := by
      have h3 : first.Version + 2 ^ 64 - 2 = (first.Version - 2) + 2 ^ 64 := by omega
      rw [h3, Nat.add_mod_right]
      exact Nat.mod_eq_of_lt (by omega)
    simp only [hgt, if_true, hsub]
  · intro h0
    simp [h0]

theorem save_expected_revision_witness :
    ∃ call : AppendCall,
      Client.saveCall (fun _ => "a_1") (eventAt "a" "1" 5 :: [eventAt "a" "1" 6]) =
        Except.ok (some call) ∧
      call.options.ExpectedRevision = some (eventstore.ExpectedRevision.StreamRevision 3) :=
  match save_expected_revision (fun _ => "a_1") (eventAt "a" "1" 5) [eventAt "a" "1" 6] with
  | ⟨call, h1, _, _, h4, _⟩ => ⟨call, h1, h4 (by decide) (by decide)⟩

/-- C23 fails as stated: in the batch of versions 3, 2 the lowest version is 2, which
would give the revision 0, yet `Save` sends the revision 1, taken from the first event. -/
theorem save_expected_revision_counterexample :
    ([eventAt "a" "1" 3, eventAt "a" "1" 2].map (fun v => v.Version)).min? = some 2 ∧
    (∃ call : AppendCall,
      Client.saveCall (fun _ => "a_1") [eventAt "a" "1" 3, eventAt "a" "1" 2] =
        Except.ok (some call) ∧
      call.options.ExpectedRevision = some (eventstore.ExpectedRevision.StreamRevision 1) ∧
      call.options.ExpectedRevision ≠
        some (eventstore.ExpectedRevision.StreamRevision (2 - 2))) := by
  refine ⟨by decide, _, saveCall_cons _ _ _, by decide, by decide⟩

/-! ## Reading back -/

theorem record_length (streamID : String) (now : Nat) (data : List eventstore.EventData)
    (start : Nat) : (eventstore.record streamID now start data).length = data.length := by
  induction data generalizing start with
  | nil => rfl
  | cons d rest ih => simp [eventstore.record, ih]

theorem record_numbers (streamID : String) (now : Nat) (data : List eventstore.EventData)
    (start : Nat) :
    (eventstore.record streamID now start data).map (fun r => r.EventNumber) =
      List.range' start data.length := by
  induction data generalizing start with
  | nil => rfl
  | cons d rest ih => simp [eventstore.record, ih, List.range'_succ]

theorem record_streamID (streamID : String) (now : Nat) (data : List eventstore.EventData)
    (start : Nat) : ∀ r ∈ eventstore.record streamID now start data, r.StreamID = streamID := by
  induction data generalizing start with
  | nil => intro r hr; simp [eventstore.record] at hr
  | cons d rest ih =>
    intro r hr
    simp only [eventstore.record, List.mem_cons] at hr
    rcases hr with hr | hr
    · rw [hr]
    · exact ih (start + 1) r hr

theorem value_of_event (split : String → List String) (i : Iterator)
    (r : eventstore.RecordedEvent) (he : i.event = some r)
    (hs : 2 ≤ (split r.StreamID).length) :
    ∃ ev, Iterator.Value split i = some ev ∧ ev.Version = r.EventNumber := by
  unfold Iterator.Value
  rw [he]
  simp only
  have h1 : 1 < (split r.StreamID).length := by omega
  have h0 : 0 < (split r.StreamID).length := by omega
  rw [List.getElem?_eq_getElem h1, List.getElem?_eq_getElem h0]
  exact ⟨_, rfl, rfl⟩

theorem value_some (split : String → List String) (i : Iterator) (ev : Event)
    (h : Iterator.Value split i = some ev) :
    ∃ r, i.event = some r ∧ ev.Version = r.EventNumber := by
  unfold Iterator.Value at h
  cases he : i.event with
  | none => rw [he] at h; cases h
  | some r =>
    rw [he] at h
    simp only at h
    refine ⟨r, rfl, ?_⟩
    split at h
    · simp only [Option.some.injEq] at h
      rw [← h]
    · cases h

theorem readAll_versions (split : String → List String)
    (records : List eventstore.RecordedEvent) (fuel : Nat) (i : Iterator)
    (hs : i.stream = some records) (hfuel : records.length < fuel)
    (hsplit : ∀ r ∈ records, 2 ≤ (split r.StreamID).length) :
    (readAll split fuel i).map (Option.map (fun e => e.Version)) =
      records.map (fun r => some r.EventNumber) := by
  induction records generalizing fuel i with
  | nil =>
    cases fuel with
    | zero => simp at hfuel
    | succ f => simp [readAll, Iterator.Next, hs]
  | cons r rest ih =>
    cases fuel with
    | zero => simp at hfuel
    | succ f =>
      have hnext : i.Next = ({ i with stream := some rest, event := some r }, true) := by
        simp [Iterator.Next, hs]
      obtain ⟨ev, hev, hver⟩ := value_of_event split
        { i with stream := some rest, event := some r } r rfl
        (hsplit r (List.mem_cons_self r rest))
      have hrest := ih f { i with stream := some rest, event := some r } rfl
        (by simp only [List.length_cons] at hfuel; omega)
        (fun x hx => hsplit x (List.mem_cons_of_mem r hx))
      simp only [readAll, hnext, if_true, List.map_cons, hev, Option.map_some', hver, hrest]

theorem save_then_read (split : String → List String) (stream : List Event → String)
    (store : eventstore.Store) (events : List Event) (aggregate id : String) (now : Nat)
    (hne : events ≠ []) (hlen : events.length < 2 ^ 63)
    (hver : events.map (fun v => v.Version) = List.range' 1 events.length)
    (hname : stream events = aggregate ++ "_" ++ id)
    (hnew : store (aggregate ++ "_" ++ id) = none)
    (hsplit : 2 ≤ (split (aggregate ++ "_" ++ id)).length) :
    ∃ (store1 : eventstore.Store) (it : Iterator),
      Client.Save stream store events now = (store1, none) ∧
      Client.Get store1 id aggregate 0 = Except.ok it ∧
      ∀ fuel, events.length < fuel →
        (readAll split fuel it).map (Option.map (fun e => e.Version)) =
          (List.range events.length).map some := by
  obtain ⟨first, rest, rfl⟩ := List.exists_cons_of_ne_nil hne
  have hfirst : first.Version = 1 := by
    simp only [List.map_cons, List.length_cons, List.range'_succ, List.cons.injEq] at hver
    exact hver.1
  let data : List eventstore.EventData := (first :: rest).map (fun v =>
    ({ ContentType := eventstore.ContentType.JsonContentType, EventType := v.TypeName,
       Data := v.Data, Metadata := v.Metadata } : eventstore.EventData))
  let records := eventstore.record (aggregate ++ "_" ++ id) now 0 data
  have hdata : data.length = (first :: rest).length := by simp [data]
  have hrecords : records.length = (first :: rest).length := by
    simp only [records, record_length, hdata]
  refine ⟨Function.update store (aggregate ++ "_" ++ id) (some records),
    { stream := some records, event := none, err := none }, ?_, ?_, ?_⟩
  · unfold Client.Save
    rw [saveCall_cons]
    simp only [hfirst, hname]
    simp [eventstore.AppendToStream, eventstore.revisionAccepted, hnew, records, data]
  · unfold Client.Get eventstore.ReadStream
    simp only [Function.update_same, List.drop_zero]
    have hle : records.length ≤ count := by
      rw [hrecords]
      unfold count
      omega
    have hpos : ¬ records.length ≤ 0 := by
      rw [hrecords]
      simp
    rw [if_neg hpos, List.take_of_length_le hle]
  · intro fuel hfuel
    have h := readAll_versions split records fuel
      { stream := some records, event := none, err := none } rfl
      (by rw [hrecords]; exact hfuel)
      (by
        intro r hr
        rw [record_streamID _ _ _ _ r hr]
        exact hsplit)
    rw [h]
    have hnum := record_numbers (aggregate ++ "_" ++ id) now data 0
    have hmap : records.map (fun r => some r.EventNumber) =
        (records.map (fun r => r.EventNumber)).map some := by
      rw [List.map_map]; rfl
    rw [hmap, hnum, hdata, List.range_eq_range']

/-- C26: `Iterator.Value` returns an event whose version is the event number of the
record received last, nothing added: whenever it returns, and it returns whenever the
name of the stream splits into at least two parts. So when `Save` writes events of
versions 1, ..., n in order to a stream that does not exist yet and the stream is read back
from its start, the events come back with the versions 0, ..., n - 1: the i-th one with
version i - 1, not with the version i it was saved under. -/
theorem value_version_is_event_number (split : String → List String) :
    (∀ (i : Iterator) (r : eventstore.RecordedEvent), i.event = some r →
      2 ≤ (split r.StreamID).length →
      ∃ ev, Iterator.Value split i = some ev ∧ ev.Version = r.EventNumber) ∧
    (∀ (i : Iterator) (ev : Event), Iterator.Value split i = some ev →
      ∃ r, i.event = some r ∧ ev.Version = r.EventNumber) ∧
    (∀ (stream : List Event → String) (store : eventstore.Store) (events : List Event)
      (aggregate id : String) (now : Nat),
      events ≠ [] → events.length < 2 ^ 63 →
      events.map (fun v => v.Version) = List.range' 1 events.length →
      stream events = aggregate ++ "_" ++ id →
      store (aggregate ++ "_" ++ id) = none →
      2 ≤ (split (aggregate ++ "_" ++ id)).length →
      ∃ (store1 : eventstore.Store) (it : Iterator),
        Client.Save stream store events now = (store1, none) ∧
        Client.Get store1 id aggregate 0 = Except.ok it ∧
        ∀ fuel, events.length < fuel →
          (readAll split fuel it).map (Option.map (fun e => e.Version)) =
            (List.range events.length).map some ∧
          (readAll split fuel it).map (Option.map (fun e => e.Version)) ≠
            events.map (fun v => some v.Version)) := by
  refine ⟨value_of_event split, value_some split, ?_⟩
  intro stream store events aggregate id now hne hlen hver hname hnew hsplit
  obtain ⟨store1, it, h1, h2, h3⟩ :=
    save_then_read split stream store events aggregate id now hne hlen hver hname hnew hsplit
  refine ⟨store1, it, h1, h2, ?_⟩
  intro fuel hfuel
  refine ⟨h3 fuel hfuel, ?_⟩
  rw [h3 fuel hfuel]
  have hmap : events.map (fun v => some v.Version) =
      (events.map (fun v => v.Version)).map some := by
    rw [List.map_map]; rfl
  rw [hmap, hver]
  obtain ⟨first, rest, rfl⟩ := List.exists_cons_of_ne_nil hne
  simp [List.range_succ_eq_map, List.range'_succ]

theorem value_version_is_event_number_witness :
    ∃ (store1 : eventstore.Store) (it : Iterator),
      Client.Save (fun _ => "a_1") (fun _ => none)
        [eventAt "a" "1" 1, eventAt "a" "1" 2] 0 = (store1, none) ∧
      Client.Get store1 "1" "a" 0 = Except.ok it ∧
      (readAll (fun s => (s.toList.splitOn (Char.ofNat 95)).map String.mk) 3 it).map
        (Option.map (fun e => e.Version)) = [some 0, some 1] :=
  match (value_version_is_event_number
      (fun s => (s.toList.splitOn (Char.ofNat 95)).map String.mk)).2.2
      (fun _ => "a_1") (fun _ => none) [eventAt "a" "1" 1, eventAt "a" "1" 2] "a" "1" 0
      (by simp) (by decide) (by decide) (by decide) rfl (by decide) with
  | ⟨store1, it, h1, h2, h3⟩ => ⟨store1, it, h1, h2, (h3 3 (by decide)).1⟩

end esdb
